import Mathlib

/-!
Verification of the ISMCTS decision engine of Tranquil Tempest (tempest.py).

The module under study implements Information-Set Monte Carlo Tree Search for
the five-player card game Mighty.  We embed the determinizer
(`determinize`), the game-state construction (`GameState.from_perspective`),
the search-tree node operations (`InfoSet`), the search driver (`ismcts`),
and the inference machinery (`Inferences` / `Inference` / `CardSet`).

Cards are opaque comparable tokens (the card/suit/rank module of the rule
engine is outside the verified core), so the embedding is parametric in a
type `Card` with decidable equality and in the deck list `Card.iter()`
produces.  Randomness (`random.shuffle`, `random.choice`) is modelled by
explicit oracle parameters; `assert` failures and Python runtime errors are
modelled by `Option`/`Except` results.
-/

namespace Tempest

/-- A play record (`cs.Play`): the acting player together with the card. -/
structure Play (Card : Type) where
  player : Fin 5
  card : Card
deriving DecidableEq

/-- The game-phase marker used by the play stage (`cs.CallType`). -/
inductive CallType where
  | PLAY : CallType
  | GAME_OVER : CallType
deriving DecidableEq

/-- One player's observable knowledge of the game (`cs.Perspective`), with the
fields that `tempest.py` reads.  The source stores `hand_sizes` as a list of
five counts; we model it as a function on the five players. -/
structure Perspective (Card : Type) where
  player : Fin 5
  hand : List Card
  kitty : List Card
  point_cards : List (List Card)
  completed_tricks : List (List (Play Card))
  trick_winners : List (Fin 5)
  current_trick : List (Play Card)
  declarer : Fin 5
  trump : Nat
  bid : Nat
  friend : Option (Fin 5)
  called_friend : Option (Fin 5)
  friend_just_revealed : Bool
  hand_sizes : Fin 5 → Nat

/-- A fully determinized play-stage state (class `GameState` of tempest.py).
`mighty` and `ripper` are computed by the external `cs.trump_to_mighty` /
`cs.trump_to_ripper`, which we take as parameters of the constructor. -/
structure GameState (Card : Type) where
  hands : Fin 5 → List Card
  kitty : List Card
  point_cards : List (List Card)
  completed_tricks : List (List (Play Card))
  trick_winners : List (Fin 5)
  current_trick : List (Play Card)
  declarer : Fin 5
  trump : Nat
  bid : Nat
  friend : Option (Fin 5)
  called_friend : Option (Fin 5)
  friend_just_revealed : Bool
  mighty : Card
  ripper : Card
  next_calltype : CallType
  leader : Fin 5

/-- `GameState.__init__`: stores the fields and computes `mighty`, `ripper`,
`next_calltype` and `leader`.  Reading `trick_winners[-1]` on an empty list is
a Python `IndexError`, modelled as `none`. -/
def GameState.init {Card : Type} (t2m t2r : Nat → Card)
    (hands : Fin 5 → List Card) (kitty : List Card)
    (point_cards : List (List Card))
    (completed_tricks : List (List (Play Card)))
    (trick_winners : List (Fin 5)) (current_trick : List (Play Card))
    (declarer : Fin 5) (trump : Nat) (bid : Nat) (friend : Option (Fin 5))
    (called_friend : Option (Fin 5)) (friend_just_revealed : Bool) :
    Option (GameState Card) :=
  let next_calltype := if completed_tricks.length < 10 then CallType.PLAY
    else CallType.GAME_OVER
  let leaderOpt := if completed_tricks.length = 0 then some declarer
    else trick_winners.getLast?
  match leaderOpt with
  | none => none
  | some leader =>
      some { hands := hands, kitty := kitty, point_cards := point_cards,
             completed_tricks := completed_tricks,
             trick_winners := trick_winners, current_trick := current_trick,
             declarer := declarer, trump := trump, bid := bid,
             friend := friend, called_friend := called_friend,
             friend_just_revealed := friend_just_revealed,
             mighty := t2m trump, ripper := t2r trump,
             next_calltype := next_calltype, leader := leader }

/-- `GameState.from_perspective`: builds a `GameState` from a perspective and
given hands/kitty.  The source deep-copies its arguments, which is the
identity on immutable values. -/
def GameState.from_perspective {Card : Type} (t2m t2r : Nat → Card)
    (perspective : Perspective Card) (hands : Fin 5 → List Card)
    (kitty : List Card) : Option (GameState Card) :=
  GameState.init t2m t2r hands kitty perspective.point_cards
    perspective.completed_tricks perspective.trick_winners
    perspective.current_trick perspective.declarer perspective.trump
    perspective.bid perspective.friend perspective.called_friend
    perspective.friend_just_revealed

/-- All cards appearing in a list of tricks. -/
def trickCards {Card : Type} (tricks : List (List (Play Card))) : List Card :=
  tricks.flatten.map Play.card

/-- The cards whose location the perspective already knows: cards of completed
tricks, of the current trick, of the observer's hand, and of the kitty when
the observer is the declarer.  This is the `played_cards` set built at the
start of `determinize` (membership is what matters; we keep a list). -/
def seenCards {Card : Type} (p : Perspective Card) : List Card :=
  trickCards p.completed_tricks ++ p.current_trick.map Play.card ++ p.hand ++
    (if p.player = p.declarer then p.kitty else [])

/-- `sum(perspective.hand_sizes)`. -/
def sumHandSizes {Card : Type} (p : Perspective Card) : Nat :=
  ((List.finRange 5).map p.hand_sizes).sum

/-- Pop `n` cards off the end of `pool` (`unplayed_cards.pop()` repeated),
returning them in pop order together with the remaining pool; `none` when the
pool runs dry (Python `IndexError`). -/
def popDeal {Card : Type} : Nat → List Card → Option (List Card × List Card)
  | 0, pool => some ([], pool)
  | n + 1, pool =>
    match pool.getLast? with
    | none => none
    | some c =>
      match popDeal n pool.dropLast with
      | none => none
      | some (h, rest) => some (c :: h, rest)

/-- The dealing loop of `determinize`: for each player in index order other
than the observer, pop that player's recorded hand size off the pool. -/
def dealPlayers {Card : Type} (sizes : Fin 5 → Nat) (obs : Fin 5) :
    List (Fin 5) → (Fin 5 → List Card) → List Card →
    Option ((Fin 5 → List Card) × List Card)
  | [], hands, pool => some (hands, pool)
  | q :: qs, hands, pool =>
    if q = obs then dealPlayers sizes obs qs hands pool
    else
      match popDeal (sizes q) pool with
      | none => none
      | some (h, pool') =>
          dealPlayers sizes obs qs (Function.update hands q h) pool'

/-- `determinize(perspective, mode)` for `mode = 0`.  `deck` is the list
`Card.iter()` produces; `shuffle` is the `random.shuffle` oracle.  A failed
`assert`, a pop from an empty pool, and the `NotImplementedError` of any
nonzero mode are all modelled as `none`. -/
def determinize {Card : Type} [DecidableEq Card] (t2m t2r : Nat → Card)
    (deck : List Card) (shuffle : List Card → List Card)
    (p : Perspective Card) (mode : Nat := 0) : Option (GameState Card) :=
  if mode = 0 then
    let is_declarer := p.player = p.declarer
    let unplayed := shuffle (deck.filter (fun c => c ∉ seenCards p))
    let assert_ok :=
      if is_declarer then
        (unplayed.length : Int) = (sumHandSizes p : Int) - p.hand.length
      else
        (unplayed.length : Int) = (sumHandSizes p : Int) - p.hand.length + 3
    if assert_ok then
      match dealPlayers p.hand_sizes p.player (List.finRange 5)
          (fun _ => []) unplayed with
      | none => none
      | some (hands0, rest) =>
          let hands := Function.update hands0 p.player p.hand
          let kitty := if is_declarer then p.kitty else rest
          GameState.from_perspective t2m t2r p hands kitty
    else none
  else none

/-- Every card location of a determinized state: the five hands, the kitty,
and the already-played positions (completed tricks and the current trick). -/
def allLocations {Card : Type} (st : GameState Card) : List Card :=
  ((List.finRange 5).map st.hands).flatten ++ st.kitty ++
    trickCards st.completed_tricks ++ st.current_trick.map Play.card

/-- Total number of cards the dealing loop owes to the players of `qs` other
than the observer. -/
def neededSizes (sizes : Fin 5 → Nat) (obs : Fin 5) (qs : List (Fin 5)) : Nat :=
  ((qs.filter (fun q => q ≠ obs)).map sizes).sum

/-- Cards owed to the four players other than the observer. -/
def othersSizes {Card : Type} (p : Perspective Card) : Nat :=
  neededSizes p.hand_sizes p.player (List.finRange 5)

theorem popDeal_eq_some {Card : Type} :
    ∀ (n : Nat) (pool h rest : List Card),
      popDeal n pool = some (h, rest) →
      (h ++ rest).Perm pool ∧ h.length = n ∧ rest.length + n = pool.length := by
  intro n
  induction n with
  | zero =>
    intro pool h rest hp
    simp only [popDeal, Option.some.injEq, Prod.mk.injEq] at hp
    obtain ⟨he, hr⟩ := hp
    subst he; subst hr
    exact ⟨List.Perm.refl _, rfl, rfl⟩
  | succ n IH =>
    intro pool h rest hp
    simp only [popDeal] at hp
    cases hg : pool.getLast? with
    | none => rw [hg] at hp; cases hp
    | some c =>
      rw [hg] at hp
      cases hpd : popDeal n pool.dropLast with
      | none => rw [hpd] at hp; cases hp
      | some pr =>
        obtain ⟨h', rest'⟩ := pr
        rw [hpd] at hp
        simp only [Option.some.injEq, Prod.mk.injEq] at hp
        obtain ⟨he, hr⟩ := hp
        subst he; subst hr
        obtain ⟨hperm, hh, hl⟩ := IH pool.dropLast h' rest' hpd
        have hne : pool ≠ [] := by
          intro he; subst he; simp at hg
        have hsplit : pool.dropLast ++ [c] = pool :=
          List.dropLast_append_getLast? c (by simp [hg])
        have hlen : pool.dropLast.length + 1 = pool.length := by
          rw [List.length_dropLast]
          have := List.length_pos.mpr hne
          omega
        refine ⟨?_, by simp [hh], by omega⟩
        have p1 : ((c :: h') ++ rest').Perm (c :: pool.dropLast) := hperm.cons c
        have p2 : (c :: pool.dropLast).Perm (pool.dropLast ++ [c]) :=
          (List.perm_append_singleton c pool.dropLast).symm
        have p3 := p1.trans p2
        rwa [hsplit] at p3

theorem popDeal_isSome {Card : Type} :
    ∀ (n : Nat) (pool : List Card), n ≤ pool.length →
      ∃ h rest, popDeal n pool = some (h, rest) := by
  intro n
  induction n with
  | zero => exact fun pool _ => ⟨[], pool, rfl⟩
  | succ n IH =>
    intro pool hlen
    have hne : pool ≠ [] := by
      intro he; subst he; simp at hlen
    have hg : pool.getLast? = some (pool.getLast hne) :=
      List.getLast?_eq_getLast pool hne
    have hdl : n ≤ pool.dropLast.length := by
      rw [List.length_dropLast]; omega
    obtain ⟨h, rest, hp⟩ := IH pool.dropLast hdl
    exact ⟨pool.getLast hne :: h, rest, by simp [popDeal, hg, hp]⟩

theorem dealPlayers_spec {Card : Type} (sizes : Fin 5 → Nat) (obs : Fin 5) :
    ∀ (qs : List (Fin 5)) (hands : Fin 5 → List Card) (pool : List Card),
      qs.Nodup → neededSizes sizes obs qs ≤ pool.length →
      ∃ hands' rest,
        dealPlayers sizes obs qs hands pool = some (hands', rest) ∧
        (∀ q, q ∉ qs → hands' q = hands q) ∧
        hands' obs = hands obs ∧
        (((qs.filter (fun q => q ≠ obs)).map hands').flatten ++ rest).Perm pool ∧
        rest.length + neededSizes sizes obs qs = pool.length := by
  intro qs
  induction qs with
  | nil =>
    intro hands pool _ _
    exact ⟨hands, pool, rfl, fun q _ => rfl, rfl, by simp, by simp [neededSizes]⟩
  | cons q qs IH =>
    intro hands pool hnd hlen
    have hqs : qs.Nodup := hnd.of_cons
    have hqnot : q ∉ qs := (List.nodup_cons.mp hnd).1
    by_cases hq : q = obs
    · subst hq
      have hfil : (q :: qs).filter (fun x => x ≠ q) = qs.filter (fun x => x ≠ q) := by
        simp [List.filter_cons]
      have hneed : neededSizes sizes q (q :: qs) = neededSizes sizes q qs := by
        simp [neededSizes, hfil]
      obtain ⟨hands', rest, heq, hout, hobs', hperm, hrl⟩ :=
        IH hands pool hqs (by rw [hneed] at hlen; exact hlen)
      refine ⟨hands', rest, by simpa [dealPlayers] using heq, ?_, hobs', ?_, ?_⟩
      · intro q₀ hq₀
        exact hout q₀ (fun hm => hq₀ (List.mem_cons_of_mem _ hm))
      · rw [hfil]; exact hperm
      · rw [hneed]; exact hrl
    · have hneed : neededSizes sizes obs (q :: qs)
          = sizes q + neededSizes sizes obs qs := by
        simp [neededSizes, List.filter_cons, hq]
      have hsq : sizes q ≤ pool.length := by rw [hneed] at hlen; omega
      obtain ⟨h, pool', hpop⟩ := popDeal_isSome (sizes q) pool hsq
      obtain ⟨hpperm, hhlen, hplen⟩ := popDeal_eq_some (sizes q) pool h pool' hpop
      obtain ⟨hands', rest, heq, hout, hobs', hperm, hrl⟩ :=
        IH (Function.update hands q h) pool' hqs (by rw [hneed] at hlen; omega)
      refine ⟨hands', rest, ?_, ?_, ?_, ?_, ?_⟩
      · simpa [dealPlayers, hq, hpop] using heq
      · intro q₀ hq₀
        have h1 : q₀ ∉ qs := fun hm => hq₀ (List.mem_cons_of_mem _ hm)
        have h2 : q₀ ≠ q := fun he => hq₀ (he ▸ List.mem_cons_self _ _)
        rw [hout q₀ h1, Function.update_noteq h2]
      · rw [hobs', Function.update_noteq (fun he => hq (he.symm))]
      · have hfil : (q :: qs).filter (fun x => x ≠ obs)
            = q :: qs.filter (fun x => x ≠ obs) := by
          simp [List.filter_cons, hq]
        have hhq : hands' q = h := by
          rw [hout q hqnot, Function.update_same]
        rw [hfil]
        simp only [List.map_cons, List.flatten_cons, hhq]
        have p1 : (h ++ (((qs.filter (fun x => x ≠ obs)).map hands').flatten ++ rest)).Perm
            (h ++ pool') := hperm.append_left h
        have p2 := p1.trans hpperm
        rwa [← List.append_assoc] at p2
      · rw [hneed]; omega

theorem sumHandSizes_eq {Card : Type} (p : Perspective Card) :
    sumHandSizes p = p.hand_sizes p.player + othersSizes p := by
  unfold sumHandSizes othersSizes neededSizes
  generalize p.hand_sizes = f
  generalize p.player = obs
  have hfin : List.finRange 5 = [0, 1, 2, 3, 4] := rfl
  rw [hfin]
  fin_cases obs <;> simp <;> omega

theorem flatten_update_perm {Card : Type} [DecidableEq Card]
    (hands0 : Fin 5 → List Card) (obs : Fin 5) (v : List Card) :
    (((List.finRange 5).map (Function.update hands0 obs v)).flatten).Perm
      (v ++ (((List.finRange 5).filter (fun q => q ≠ obs)).map hands0).flatten) := by
  have hfin : List.finRange 5 = [0, 1, 2, 3, 4] := rfl
  rw [hfin]
  fin_cases obs <;>
    (refine List.perm_iff_count.mpr fun a => ?_
     simp [Function.update, List.count_append]
     try omega)

theorem GameState.init_some {Card : Type} (t2m t2r : Nat → Card)
    (hands : Fin 5 → List Card) (kitty : List Card)
    (pc : List (List Card)) (ct : List (List (Play Card)))
    (tw : List (Fin 5)) (cur : List (Play Card)) (d : Fin 5) (tr b : Nat)
    (f cf : Option (Fin 5)) (fr : Bool)
    (h : ct = [] ∨ tw ≠ []) :
    ∃ st, GameState.init t2m t2r hands kitty pc ct tw cur d tr b f cf fr
        = some st ∧
      st.hands = hands ∧ st.kitty = kitty ∧ st.completed_tricks = ct ∧
      st.current_trick = cur := by
  unfold GameState.init
  by_cases hc : ct.length = 0
  · simp only [hc, if_pos rfl]
    exact ⟨_, rfl, rfl, rfl, rfl, rfl⟩
  · have htw : tw ≠ [] := h.resolve_left fun he => hc (by simp [he])
    have hg : tw.getLast? = some (tw.getLast htw) := List.getLast?_eq_getLast tw htw
    simp only [if_neg hc, hg]
    exact ⟨_, rfl, rfl, rfl, rfl, rfl⟩

theorem filter_seen_perm {Card : Type} [DecidableEq Card]
    (deck : List Card) (p : Perspective Card)
    (hdeck : deck.Nodup) (hseen : (seenCards p).Nodup)
    (hsub : ∀ c ∈ seenCards p, c ∈ deck) :
    (deck.filter (fun c => c ∈ seenCards p)).Perm (seenCards p) := by
  refine (List.perm_ext_iff_of_nodup (hdeck.filter _) hseen).mpr fun a => ?_
  simp only [List.mem_filter, decide_eq_true_eq]
  exact ⟨fun h => h.2, fun h => ⟨hsub a h, h⟩⟩

theorem filter_split_perm {Card : Type} [DecidableEq Card]
    (deck : List Card) (p : Perspective Card) :
    ((deck.filter (fun c => c ∈ seenCards p))
      ++ (deck.filter (fun c => c ∉ seenCards p))).Perm deck := by
  have h := List.filter_append_perm (fun c => decide (c ∈ seenCards p)) deck
  have he : deck.filter (fun c => !(decide (c ∈ seenCards p)))
      = deck.filter (fun c => c ∉ seenCards p) := by
    simp [decide_not]
  rwa [he] at h

/-- C1: for a rule-consistent perspective (distinct seen cards drawn from the
deck, correct recorded hand sizes, unseen pool of the exactly owed size), the
determinized state locates every deck card in exactly one of the five hands,
the kitty, and the already-played trick positions. -/
theorem determinize_card_conservation {Card : Type} [DecidableEq Card]
    (t2m t2r : Nat → Card) (deck : List Card)
    (shuffle : List Card → List Card) (p : Perspective Card)
    (hdeck : deck.Nodup)
    (hseen : (seenCards p).Nodup)
    (hsub : ∀ c ∈ seenCards p, c ∈ deck)
    (hshuffle : (shuffle (deck.filter (fun c => c ∉ seenCards p))).Perm
      (deck.filter (fun c => c ∉ seenCards p)))
    (hobs : p.hand_sizes p.player = p.hand.length)
    (hcount : (deck.filter (fun c => c ∉ seenCards p)).length
      = othersSizes p + (if p.player = p.declarer then 0 else 3))
    (hleader : p.completed_tricks = [] ∨ p.trick_winners ≠ []) :
    ∃ st, determinize t2m t2r deck shuffle p 0 = some st ∧
      (allLocations st).Perm deck ∧
      ∀ c ∈ deck, (allLocations st).count c = 1 := by
  have hsum := sumHandSizes_eq p
  have hlen : (shuffle (deck.filter (fun c => c ∉ seenCards p))).length
      = (deck.filter (fun c => c ∉ seenCards p)).length := hshuffle.length_eq
  by_cases hdecl : p.player = p.declarer
  · have hcnt : (deck.filter (fun c => c ∉ seenCards p)).length
        = othersSizes p := by simpa [hdecl] using hcount
    obtain ⟨hands0, rest, hdeal, hout, hobs0, hpermDeal, hrest⟩ :=
      dealPlayers_spec p.hand_sizes p.player (List.finRange 5)
        (fun _ => ([] : List Card))
        (shuffle (deck.filter (fun c => c ∉ seenCards p)))
        (List.nodup_finRange 5)
        (by unfold othersSizes at hcnt; omega)
    have hrest0 : rest = [] := by
      have h0 : rest.length = 0 := by unfold othersSizes at hcnt; omega
      exact List.length_eq_zero.mp h0
    have hassert : ((shuffle (deck.filter (fun c => c ∉ seenCards p))).length : Int)
        = (sumHandSizes p : Int) - p.hand.length := by
      rw [hlen, hcnt, hsum, hobs]; push_cast; ring
    have hfrom : determinize t2m t2r deck shuffle p 0
        = GameState.from_perspective t2m t2r p
            (Function.update hands0 p.player p.hand) p.kitty := by
      simp only [determinize, if_pos hdecl, if_pos rfl]
      rw [if_pos hassert, hdeal]
      simp
    obtain ⟨st, hinit, h1, h2, h3, h4⟩ :=
      GameState.init_some t2m t2r (Function.update hands0 p.player p.hand)
        p.kitty p.point_cards p.completed_tricks p.trick_winners
        p.current_trick p.declarer p.trump p.bid p.friend p.called_friend
        p.friend_just_revealed hleader
    have hdet : determinize t2m t2r deck shuffle p 0 = some st :=
      hfrom.trans hinit
    have key : ∀ a : Card, (allLocations st).count a = deck.count a := by
      intro a
      have c1 := (flatten_update_perm hands0 p.player p.hand).count_eq a
      have c2 := hpermDeal.count_eq a
      have c3 := hshuffle.count_eq a
      have c4 := (filter_split_perm deck p).count_eq a
      have c5 := (filter_seen_perm deck p hdeck hseen hsub).count_eq a
      have c6 : (seenCards p).count a
          = (trickCards p.completed_tricks).count a
            + (p.current_trick.map Play.card).count a + p.hand.count a
            + p.kitty.count a := by
        simp [seenCards, hdecl, List.count_append]; omega
      rw [hrest0] at c2
      rw [allLocations, h1, h2, h3, h4]
      simp only [List.count_append, List.count_nil] at c1 c2 c4 c5 ⊢
      omega
    refine ⟨st, hdet, List.perm_iff_count.mpr key, fun c hc => ?_⟩
    rw [key c]
    exact List.count_eq_one_of_mem hdeck hc
  · have hcnt : (deck.filter (fun c => c ∉ seenCards p)).length
        = othersSizes p + 3 := by simpa [hdecl] using hcount
    obtain ⟨hands0, rest, hdeal, hout, hobs0, hpermDeal, hrest⟩ :=
      dealPlayers_spec p.hand_sizes p.player (List.finRange 5)
        (fun _ => ([] : List Card))
        (shuffle (deck.filter (fun c => c ∉ seenCards p)))
        (List.nodup_finRange 5)
        (by unfold othersSizes at hcnt; omega)
    have hassert : ((shuffle (deck.filter (fun c => c ∉ seenCards p))).length : Int)
        = (sumHandSizes p : Int) - p.hand.length + 3 := by
      rw [hlen, hcnt, hsum, hobs]; push_cast; ring
    have hfrom : determinize t2m t2r deck shuffle p 0
        = GameState.from_perspective t2m t2r p
            (Function.update hands0 p.player p.hand) rest := by
      simp only [determinize, if_neg hdecl, if_pos rfl]
      rw [if_pos hassert, hdeal]
      simp
    obtain ⟨st, hinit, h1, h2, h3, h4⟩ :=
      GameState.init_some t2m t2r (Function.update hands0 p.player p.hand)
        rest p.point_cards p.completed_tricks p.trick_winners
        p.current_trick p.declarer p.trump p.bid p.friend p.called_friend
        p.friend_just_revealed hleader
    have hdet : determinize t2m t2r deck shuffle p 0 = some st :=
      hfrom.trans hinit
    have key : ∀ a : Card, (allLocations st).count a = deck.count a := by
      intro a
      have c1 := (flatten_update_perm hands0 p.player p.hand).count_eq a
      have c2 := hpermDeal.count_eq a
      have c3 := hshuffle.count_eq a
      have c4 := (filter_split_perm deck p).count_eq a
      have c5 := (filter_seen_perm deck p hdeck hseen hsub).count_eq a
      have c6 : (seenCards p).count a
          = (trickCards p.completed_tricks).count a
            + (p.current_trick.map Play.card).count a + p.hand.count a := by
        simp [seenCards, hdecl, List.count_append]; omega
      rw [allLocations, h1, h2, h3, h4]
      simp only [List.count_append, List.count_nil] at c1 c2 c4 c5 ⊢
      omega
    refine ⟨st, hdet, List.perm_iff_count.mpr key, fun c hc => ?_⟩
    rw [key c]
    exact List.count_eq_one_of_mem hdeck hc

theorem GameState.init_fields {Card : Type} (t2m t2r : Nat → Card)
    (hands : Fin 5 → List Card) (kitty : List Card) (pc : List (List Card))
    (ct : List (List (Play Card))) (tw : List (Fin 5)) (cur : List (Play Card))
    (d : Fin 5) (tr b : Nat) (f cf : Option (Fin 5)) (fr : Bool)
    (st : GameState Card)
    (h : GameState.init t2m t2r hands kitty pc ct tw cur d tr b f cf fr
      = some st) :
    st.hands = hands ∧ st.kitty = kitty ∧ st.completed_tricks = ct ∧
      st.current_trick = cur := by
  simp only [GameState.init] at h
  split at h
  · exact absurd h (by simp)
  · cases h
    exact ⟨rfl, rfl, rfl, rfl⟩

/-- C8: whenever `determinize` succeeds, the observer's hand and all
already-played cards (completed tricks and the current trick) of the
determinized state are exactly those recorded in the perspective — copied
verbatim, never re-sampled. -/
theorem determinize_observer_fidelity {Card : Type} [DecidableEq Card]
    (t2m t2r : Nat → Card) (deck : List Card)
    (shuffle : List Card → List Card) (p : Perspective Card)
    (st : GameState Card)
    (h : determinize t2m t2r deck shuffle p 0 = some st) :
    st.hands p.player = p.hand ∧ st.completed_tricks = p.completed_tricks ∧
      st.current_trick = p.current_trick := by
  simp only [determinize, if_pos rfl, if_true] at h
  split at h <;> split at h
  · split at h
    · exact Option.noConfusion h
    · unfold GameState.from_perspective at h
      obtain ⟨hh, hk, hct, hcur⟩ := GameState.init_fields _ _ _ _ _ _ _ _ _ _ _
        _ _ _ st h
      exact ⟨by rw [hh, Function.update_same], hct, hcur⟩
  · exact Option.noConfusion h
  · split at h
    · exact Option.noConfusion h
    · unfold GameState.from_perspective at h
      obtain ⟨hh, hk, hct, hcur⟩ := GameState.init_fields _ _ _ _ _ _ _ _ _ _ _
        _ _ _ st h
      exact ⟨by rw [hh, Function.update_same], hct, hcur⟩
  · exact Option.noConfusion h

/-- A small concrete perspective over an 8-card deck used by the witnesses:
the observer (player 0) is not the declarer, holds one card, nothing has been
played yet, and every player still holds one card. -/
def pWit1 : Perspective (Fin 8) :=
  { player := 0, hand := [0], kitty := [], point_cards := [],
    completed_tricks := [], trick_winners := [], current_trick := [],
    declarer := 1, trump := 0, bid := 0, friend := none,
    called_friend := none, friend_just_revealed := false,
    hand_sizes := fun _ => 1 }

theorem determinize_card_conservation_witness :
    ∃ st, determinize (fun _ => (0 : Fin 8)) (fun _ => 0) (List.finRange 8)
        id pWit1 0 = some st ∧
      (allLocations st).Perm (List.finRange 8) ∧
      ∀ c ∈ List.finRange 8, (allLocations st).count c = 1 :=
  determinize_card_conservation (fun _ => (0 : Fin 8)) (fun _ => 0)
    (List.finRange 8) id pWit1 (by decide) (by decide) (by decide)
    (List.Perm.refl _) rfl (by decide) (Or.inl rfl)

theorem determinize_observer_fidelity_witness :
    ∃ st, determinize (fun _ => (0 : Fin 8)) (fun _ => 0) (List.finRange 8)
        id pWit1 0 = some st ∧
      st.hands pWit1.player = pWit1.hand ∧
      st.completed_tricks = pWit1.completed_tricks ∧
      st.current_trick = pWit1.current_trick := by
  have hs : (determinize (fun _ => (0 : Fin 8)) (fun _ => 0)
      (List.finRange 8) id pWit1 0).isSome = true := by decide
  obtain ⟨st, hst⟩ := Option.isSome_iff_exists.mp hs
  exact ⟨st, hst, determinize_observer_fidelity (fun _ => (0 : Fin 8))
    (fun _ => 0) (List.finRange 8) id pWit1 st hst⟩

/-! ## The ISMCTS search tree and driver

The mutable `InfoSet` objects of the source are embedded as a store (a list
of nodes indexed by node id, the root at id 0); object references become
ids, and each mutating method returns the updated store.  The external rule
engine (`engine.GameEngine` subclass methods used by `ismcts`) is a record
of functions on an abstract state type; the determinizations of successive
iterations and the `random.choice` draws are oracle parameters.  Python
runtime errors are modelled by `Except PyErr`. -/

/-- The Python runtime errors the search can raise, plus the fuel marker of
the embedding for the source's unbounded `while` loops. -/
inductive PyErr where
  | keyError : PyErr
  | zeroDivision : PyErr
  | indexError : PyErr
  | valueError : PyErr
  | attributeError : PyErr
  | assertionError : PyErr
  | outOfFuel : PyErr
deriving DecidableEq

/-- A node of the ISMCTS tree (class `InfoSet`): parent back-reference,
arriving play (none at the root), ordered children, the move-to-child
mapping, and the reward/visit/availability statistics. -/
structure InfoSet (P : Type) where
  parent : Option Nat
  arriving_play : Option P
  children : List Nat
  play_to_children : List (P × Nat)
  reward_sum : Int
  visits : Nat
  avails : Nat
  tried_plays : List P
deriving DecidableEq

/-- A fresh node as `InfoSet.__init__` builds it. -/
def InfoSet.fresh {P : Type} (parent : Option Nat) (arriving_play : Option P) :
    InfoSet P :=
  { parent := parent, arriving_play := arriving_play, children := [],
    play_to_children := [], reward_sum := 0, visits := 0, avails := 1,
    tried_plays := [] }

/-- `InfoSet.untried_plays`: the legal plays without children at this node. -/
def InfoSet.untried_plays {P : Type} [DecidableEq P] (n : InfoSet P)
    (legal_plays : List P) : List P :=
  legal_plays.filter (fun play => play ∉ n.tried_plays)

/-- `InfoSet.update`: add one visit, and add the arriving player's reward
component to `reward_sum` when the node has an arriving play. -/
def InfoSet.update {Card : Type} (n : InfoSet (Play Card))
    (rewards : Fin 5 → Int) : InfoSet (Play Card) :=
  { n with visits := n.visits + 1,
           reward_sum :=
             match n.arriving_play with
             | some play => n.reward_sum + rewards play.player
             | none => n.reward_sum }

/-- The interface `ismcts` consumes from the rule engine: legal-play
enumeration, move application, the phase marker, and terminal rewards. -/
structure Engine (σ Card : Type) where
  get_legal_plays : σ → List (Play Card)
  play : σ → Play Card → σ
  next_calltype : σ → CallType
  gamepoints_rewarded : σ → Fin 5 → Int

/-- Python's `max(l, key=key)`: `none` on an empty sequence (`ValueError`),
otherwise the first element whose key no later element strictly exceeds. -/
def pyMax {α β : Type} [LinearOrder β] (key : α → β) : List α → Option α
  | [] => none
  | x :: xs => some (xs.foldl (fun best y => if key best < key y then y else best) x)

/-- Python's `random.choice(lst)` with the random draw `k` supplied by an
oracle: `none` exactly when the list is empty (`IndexError`). -/
def pyChoice {α : Type} (k : Nat) (lst : List α) : Option α :=
  lst.get? (k % lst.length)

/-- Fetch a node from the store. -/
def getNode {P : Type} (s : List (InfoSet P)) (i : Nat) :
    Except PyErr (InfoSet P) :=
  match s.get? i with
  | some n => Except.ok n
  | none => Except.error PyErr.indexError

/-- Store a node back. -/
def setNode {P : Type} (s : List (InfoSet P)) (i : Nat) (n : InfoSet P) :
    List (InfoSet P) :=
  s.set i n

/-- Dictionary lookup in `_play_to_children`. -/
def lookupChild {P : Type} [DecidableEq P] (m : List (P × Nat)) (play : P) :
    Option Nat :=
  match m.find? (fun pr => pr.1 = play) with
  | some pr => some pr.2
  | none => none

/-- Evaluate `f` over a list left to right, stopping at the first error
(the effect of a Python list comprehension whose body can raise). -/
def mapExcept {A G : Type} (f : A -> Except PyErr G) :
    List A -> Except PyErr (List G)
  | [] => Except.ok []
  | a :: l => do
      let b <- f a
      let bs <- mapExcept f l
      Except.ok (b :: bs)

/-- Bump `avails` of every node in `cids`, once per occurrence (the
`child.avails += 1` loop of `ucb_child_select`). -/
def incrAvails {P : Type} (s : List (InfoSet P)) (cids : List Nat) :
    List (InfoSet P) :=
  cids.foldl (fun st cid =>
    match st.get? cid with
    | some c => st.set cid { c with avails := c.avails + 1 }
    | none => st) s

/-- `InfoSet.ucb_child_select`, generic in the scoring key: look up the
child of every legal play (`KeyError` when absent), raise `ZeroDivisionError`
when a key evaluation would divide by a zero visit count, pick the key
maximum with Python `max` semantics, then bump every legal child's
availability counter.  The selection uses the statistics held before the
availability update, exactly as in the source. -/
def ucb_child_select {Card β : Type} [DecidableEq Card] [LinearOrder β]
    (score : InfoSet (Play Card) → β) (s : List (InfoSet (Play Card)))
    (nid : Nat) (legal_plays : List (Play Card)) :
    Except PyErr (List (InfoSet (Play Card)) × Nat) := do
  let node ← getNode s nid
  let cids ← mapExcept (fun play =>
    match lookupChild node.play_to_children play with
    | some cid => Except.ok cid
    | none => Except.error PyErr.keyError) legal_plays
  let cnodes ← mapExcept (getNode s) cids
  if cnodes.any (fun c => c.visits = 0) then
    Except.error PyErr.zeroDivision
  else
    match pyMax (fun pr : Nat × InfoSet (Play Card) => score pr.2)
        (cids.zip cnodes) with
    | none => Except.error PyErr.valueError
    | some sel => Except.ok (incrAvails s cids, sel.1)

/-- `InfoSet.add_child`: create the child node at a fresh id, register it in
the parent's child list, play map and tried set, and return its id. -/
def add_child {Card : Type} [DecidableEq Card]
    (s : List (InfoSet (Play Card))) (nid : Nat) (play : Play Card) :
    Except PyErr (List (InfoSet (Play Card)) × Nat) := do
  let node ← getNode s nid
  let cid := s.length
  let node' := { node with
    children := node.children ++ [cid],
    play_to_children := node.play_to_children ++ [(play, cid)],
    tried_plays := node.tried_plays ++ [play] }
  Except.ok (setNode s nid node' ++ [InfoSet.fresh (some nid) (some play)], cid)

/-- The backpropagation loop: walk the parent chain from `nid` to the root,
calling `update` at every node.  Fuel bounds the walk (the chain is finite
because parent ids strictly decrease in any store the search builds). -/
def backpropagate {Card : Type} :
    Nat → List (InfoSet (Play Card)) → Option Nat → (Fin 5 → Int) →
    Except PyErr (List (InfoSet (Play Card)))
  | _, s, none, _ => Except.ok s
  | 0, _, some _, _ => Except.error PyErr.outOfFuel
  | fuel + 1, s, some i, rewards => do
      let n ← getNode s i
      backpropagate fuel (setNode s i (n.update rewards)) n.parent rewards

/-- The selection loop of `ismcts`: while the legal-move set is non-empty
and fully tried at the current node, descend through `ucb_child_select`,
applying the arriving play to the determinized state. -/
def selectLoop {σ Card β : Type} [DecidableEq Card] [LinearOrder β]
    (E : Engine σ Card) (score : InfoSet (Play Card) → β) :
    Nat → List (InfoSet (Play Card)) → Nat → σ → List (Play Card) →
    Except PyErr (List (InfoSet (Play Card)) × Nat × σ × List (Play Card))
  | 0, s, nid, st, legal => do
      let node ← getNode s nid
      if legal ≠ [] ∧ node.untried_plays legal = [] then
        Except.error PyErr.outOfFuel
      else
        Except.ok (s, nid, st, legal)
  | fuel + 1, s, nid, st, legal => do
      let node ← getNode s nid
      if legal ≠ [] ∧ node.untried_plays legal = [] then do
        let (s', cid) ← ucb_child_select score s nid legal
        let cnode ← getNode s' cid
        match cnode.arriving_play with
        | none => Except.error PyErr.keyError
        | some play =>
            let st' := E.play st play
            selectLoop E score fuel s' cid st' (E.get_legal_plays st')
      else
        Except.ok (s, nid, st, legal)

/-- The simulation loop: random play-outs until the phase leaves `PLAY`.
`k` indexes into the `random.choice` oracle. -/
def simLoop {σ Card : Type} (E : Engine σ Card) (choice : Nat → Nat) :
    Nat → σ → Nat → Except PyErr (σ × Nat)
  | 0, st, k =>
      if E.next_calltype st = CallType.PLAY then Except.error PyErr.outOfFuel
      else Except.ok (st, k)
  | fuel + 1, st, k =>
      if E.next_calltype st = CallType.PLAY then
        match pyChoice (choice k) (E.get_legal_plays st) with
        | none => Except.error PyErr.indexError
        | some play => simLoop E choice fuel (E.play st play) (k + 1)
      else Except.ok (st, k)

/-- One iteration of the `ismcts` loop on the freshly determinized state
`st0`: the single-move check, then selection, expansion, simulation and
backpropagation.  Returns the single play (`Sum.inr`) when the short-circuit
fires, otherwise the updated store and oracle position. -/
def oneIteration {σ Card β : Type} [DecidableEq Card] [LinearOrder β]
    (E : Engine σ Card) (score : InfoSet (Play Card) → β)
    (choice : Nat → Nat) (fuel : Nat) (s : List (InfoSet (Play Card)))
    (st0 : σ) (k : Nat) :
    Except PyErr ((List (InfoSet (Play Card)) × Nat) ⊕ Play Card) := do
  let legal0 := E.get_legal_plays st0
  if legal0.length = 1 then
    match legal0.head? with
    | some play => Except.ok (Sum.inr play)
    | none => Except.error PyErr.indexError
  else do
    let (s1, nid1, st1, legal1) ← selectLoop E score fuel s 0 st0 legal0
    let node ← getNode s1 nid1
    let untried := node.untried_plays legal1
    let (s2, nid2, st2, k2) ←
      if untried = [] then
        Except.ok (s1, nid1, st1, k)
      else
        match pyChoice (choice k) untried with
        | none => Except.error PyErr.indexError
        | some play => do
            let st2 := E.play st1 play
            let (s2, cid) ← add_child s1 nid1 play
            Except.ok (s2, cid, st2, k + 1)
    let (st3, k3) ← simLoop E choice fuel st2 k2
    let s3 ← backpropagate s2.length s2 (some nid2)
      (E.gamepoints_rewarded st3)
    Except.ok (Sum.inl (s3, k3))

/-- How a full run of the iteration loop ended: a single-move short-circuit
(with the returned play, the index of the iteration that fired, and the
store at that moment), or completion of the whole budget. -/
inductive RunExit (P : Type) where
  | shortCircuit : P → Nat → List (InfoSet P) → RunExit P
  | completed : List (InfoSet P) → RunExit P

/-- The iteration loop of `ismcts`: `rem` iterations remain, `i` is the
index of the next one, `det i` is the state `determinize` produces for it. -/
def ismctsRun {σ Card β : Type} [DecidableEq Card] [LinearOrder β]
    (E : Engine σ Card) (score : InfoSet (Play Card) → β)
    (choice : Nat → Nat) (det : Nat → σ) (fuel : Nat) :
    Nat → Nat → List (InfoSet (Play Card)) → Nat →
    Except PyErr (RunExit (Play Card))
  | 0, _, s, _ => Except.ok (RunExit.completed s)
  | rem + 1, i, s, k =>
      match oneIteration E score choice fuel s (det i) k with
      | Except.error e => Except.error e
      | Except.ok (Sum.inr play) => Except.ok (RunExit.shortCircuit play i s)
      | Except.ok (Sum.inl (s', k')) =>
          ismctsRun E score choice det fuel rem (i + 1) s' k'

/-- `ismcts(perspective, itermax)`: run the loop from a fresh root, then
return the arriving play of the most-visited root child (`max` over the
children in list order).  Python's `range` of a non-positive `itermax` is
empty, hence `itermax.toNat` iterations. -/
def ismcts {σ Card β : Type} [DecidableEq Card] [LinearOrder β]
    (E : Engine σ Card) (score : InfoSet (Play Card) → β)
    (choice : Nat → Nat) (det : Nat → σ) (fuel : Nat) (itermax : Int) :
    Except PyErr (Play Card) := do
  match ← ismctsRun E score choice det fuel itermax.toNat 0
      [InfoSet.fresh none none] 0 with
  | RunExit.shortCircuit play _ _ => Except.ok play
  | RunExit.completed s => do
      let root ← getNode s 0
      let cnodes ← mapExcept (getNode s) root.children
      match pyMax (fun c : InfoSet (Play Card) => c.visits) cnodes with
      | none => Except.error PyErr.valueError
      | some best =>
          match best.arriving_play with
          | none => Except.error PyErr.keyError
          | some play => Except.ok play

/-! ## Facts about the Python `max` embedding and store helpers -/

theorem pyMax_foldl_spec {α β : Type} [LinearOrder β] (key : α → β) :
    ∀ (xs : List α) (acc r : α),
      xs.foldl (fun best y => if key best < key y then y else best) acc = r →
      (r = acc ∧ ∀ y ∈ xs, key y ≤ key acc) ∨
      (∃ l₁ l₂, xs = l₁ ++ r :: l₂ ∧ key acc < key r ∧
        (∀ y ∈ l₁, key y < key r) ∧ (∀ y ∈ l₂, key y ≤ key r)) := by
  intro xs
  induction xs with
  | nil => intro acc r h; exact Or.inl ⟨h.symm, by simp⟩
  | cons y ys IH =>
    intro acc r h
    simp only [List.foldl_cons] at h
    by_cases hy : key acc < key y
    · rw [if_pos hy] at h
      rcases IH y r h with ⟨hr, hall⟩ | ⟨l₁, l₂, heq, hlt, hl₁, hl₂⟩
      · subst hr
        exact Or.inr ⟨[], ys, rfl, hy, by simp, hall⟩
      · exact Or.inr ⟨y :: l₁, l₂, by rw [heq]; rfl, lt_trans hy hlt,
          fun z hz => by
            rcases List.mem_cons.mp hz with hz | hz
            · subst hz; exact hlt
            · exact hl₁ z hz, hl₂⟩
    · rw [if_neg hy] at h
      push_neg at hy
      rcases IH acc r h with ⟨hr, hall⟩ | ⟨l₁, l₂, heq, hlt, hl₁, hl₂⟩
      · subst hr
        refine Or.inl ⟨rfl, fun z hz => ?_⟩
        rcases List.mem_cons.mp hz with hz | hz
        · subst hz; exact hy
        · exact hall z hz
      · exact Or.inr ⟨y :: l₁, l₂, by rw [heq]; rfl, hlt,
          fun z hz => by
            rcases List.mem_cons.mp hz with hz | hz
            · subst hz; exact lt_of_le_of_lt hy hlt
            · exact hl₁ z hz, hl₂⟩

/-- Python `max` returns the first element of the list attaining the maximal
key: everything before it is strictly smaller, everything after it is no
larger. -/
theorem pyMax_spec {α β : Type} [LinearOrder β] (key : α → β)
    (l : List α) (x : α) (h : pyMax key l = some x) :
    ∃ l₁ l₂, l = l₁ ++ x :: l₂ ∧ (∀ y ∈ l₁, key y < key x) ∧
      (∀ y ∈ l₂, key y ≤ key x) := by
  match l with
  | [] => exact absurd h (by simp [pyMax])
  | a :: xs =>
    simp only [pyMax, Option.some.injEq] at h
    rcases pyMax_foldl_spec key xs a x h with ⟨hr, hall⟩ | ⟨l₁, l₂, heq, _, hl₁, hl₂⟩
    · subst hr
      exact ⟨[], xs, rfl, by simp, hall⟩
    · exact ⟨a :: l₁, l₂, by rw [heq]; rfl, fun z hz => by
        rcases List.mem_cons.mp hz with hz | hz
        · subst hz; assumption
        · exact hl₁ z hz, hl₂⟩

theorem pyMax_isSome {α β : Type} [LinearOrder β] (key : α → β)
    (l : List α) (h : l ≠ []) : ∃ x, pyMax key l = some x := by
  match l with
  | [] => exact absurd rfl h
  | a :: xs => exact ⟨_, rfl⟩

theorem pyMax_le {α β : Type} [LinearOrder β] (key : α → β)
    (l : List α) (x : α) (h : pyMax key l = some x) :
    x ∈ l ∧ ∀ y ∈ l, key y ≤ key x := by
  obtain ⟨l₁, l₂, heq, h₁, h₂⟩ := pyMax_spec key l x h
  subst heq
  refine ⟨by simp, fun y hy => ?_⟩
  rcases List.mem_append.mp hy with hy | hy
  · exact le_of_lt (h₁ y hy)
  · rcases List.mem_cons.mp hy with hy | hy
    · subst hy; exact le_refl _
    · exact h₂ y hy

/-- `mapExcept` succeeds elementwise, in order. -/
theorem mapExcept_ok_forall {A G : Type} (f : A -> Except PyErr G) :
    forall (l : List A) (l2 : List G), mapExcept f l = Except.ok l2 ->
      List.Forall₂ (fun a b => f a = Except.ok b) l l2 := by
  intro l
  induction l with
  | nil =>
    intro l2 h
    cases h
    exact List.Forall₂.nil
  | cons a l IH =>
    intro l2 h
    simp only [mapExcept] at h
    cases hfa : f a with
    | error e => rw [hfa] at h; exact absurd h (by simp [Bind.bind, Except.bind])
    | ok b =>
      rw [hfa] at h
      cases hrest : mapExcept f l with
      | error e =>
          rw [hrest] at h
          exact absurd h (by simp [Bind.bind, Except.bind])
      | ok bs =>
          rw [hrest] at h
          have hbs : b :: bs = l2 := by
            simpa [Bind.bind, Except.bind] using h
          subst hbs
          exact List.Forall₂.cons hfa (IH bs hrest)

theorem mapExcept_ok_length {A G : Type} (f : A -> Except PyErr G)
    (l : List A) (l2 : List G) (h : mapExcept f l = Except.ok l2) :
    l2.length = l.length :=
  (mapExcept_ok_forall f l l2 h).length_eq.symm

theorem mapExcept_exists {A G : Type} (f : A -> Except PyErr G) :
    forall (l : List A), (forall a, a ∈ l -> exists b, f a = Except.ok b) ->
      exists l2, mapExcept f l = Except.ok l2 := by
  intro l
  induction l with
  | nil => exact fun _ => ⟨[], rfl⟩
  | cons a l IH =>
    intro hall
    obtain ⟨b, hb⟩ := hall a (List.mem_cons_self a l)
    obtain ⟨bs, hbs⟩ := IH fun x hx => hall x (List.mem_cons_of_mem a hx)
    exact ⟨b :: bs, by simp [mapExcept, hb, hbs, Bind.bind, Except.bind]⟩

/-- Effect of the availability-update loop on each store slot. -/
theorem incrAvails_get {P : Type} :
    ∀ (cids : List Nat) (s : List (InfoSet P)) (j : Nat),
      (incrAvails s cids).get? j
        = match s.get? j with
          | some c => some { c with avails := c.avails + cids.count j }
          | none => none := by
  intro cids
  induction cids with
  | nil =>
    intro s j
    simp only [incrAvails, List.foldl_nil]
    cases s.get? j <;> simp
  | cons cid rest IH =>
    intro s j
    cases hc : s.get? cid with
    | none =>
        have hstep0 : incrAvails s (cid :: rest) = incrAvails s rest := by
          simp only [incrAvails, List.foldl_cons, hc]
        rw [hstep0, IH]
        by_cases hj : j = cid
        · subst hj
          rw [hc]
        · have hcnt : (cid :: rest).count j = rest.count j := by
            have hne : ¬cid = j := fun he => hj he.symm
            simp [List.count_cons, hj, hne]
          rw [hcnt]
    | some c =>
        have hstep0 : incrAvails s (cid :: rest)
            = incrAvails (s.set cid { c with avails := c.avails + 1 }) rest := by
          simp only [incrAvails, List.foldl_cons, hc]
        rw [hstep0, IH]
        by_cases hj : j = cid
        · subst hj
          obtain ⟨hlt, -⟩ := List.get?_eq_some.mp hc
          rw [hc, List.get?_set_eq_of_lt _ hlt]
          dsimp only
          rw [List.count_cons_self]
          simp
          try omega
        · have hcnt : (cid :: rest).count j = rest.count j := by
            have hne : ¬cid = j := fun he => hj he.symm
            simp [List.count_cons, hj, hne]
          rw [hcnt, List.get?_set_ne _ _ (fun he => hj he.symm)]


theorem getNode_ok {P : Type} (s : List (InfoSet P)) (i : Nat)
    (n : InfoSet P) : getNode s i = Except.ok n ↔ s.get? i = some n := by
  unfold getNode
  cases s.get? i <;> simp

/-- Backpropagation never touches the `reward_sum` (nor the arriving play)
of a node whose `arriving_play` is `none`, wherever it sits in the store. -/
theorem backpropagate_preserves_none_reward {Card : Type} :
    ∀ (fuel : Nat) (s : List (InfoSet (Play Card))) (nid : Option Nat)
      (rewards : Fin 5 → Int) (s2 : List (InfoSet (Play Card))),
      backpropagate fuel s nid rewards = Except.ok s2 →
      ∀ j n₀, s.get? j = some n₀ → n₀.arriving_play = none →
        ∃ n₁, s2.get? j = some n₁ ∧ n₁.reward_sum = n₀.reward_sum ∧
          n₁.arriving_play = none := by
  intro fuel
  induction fuel with
  | zero =>
    intro s nid rewards s2 h j n₀ hj harr
    cases nid with
    | none =>
        cases h
        exact ⟨n₀, hj, rfl, harr⟩
    | some i => exact absurd h (by simp [backpropagate])
  | succ fuel IH =>
    intro s nid rewards s2 h j n₀ hj harr
    cases nid with
    | none =>
        cases h
        exact ⟨n₀, hj, rfl, harr⟩
    | some i =>
        simp only [backpropagate] at h
        cases hgn : getNode s i with
        | error e =>
            rw [hgn] at h
            exact absurd h (by simp [Bind.bind, Except.bind])
        | ok n =>
            rw [hgn] at h
            have h2 : backpropagate fuel (setNode s i (n.update rewards))
                n.parent rewards = Except.ok s2 := by
              simpa [Bind.bind, Except.bind] using h
            have hsn : s.get? i = some n := (getNode_ok s i n).mp hgn
            by_cases hji : j = i
            · subst hji
              have hnn : n = n₀ := by rw [hsn] at hj; exact Option.some.inj hj
              subst hnn
              obtain ⟨hlt, -⟩ := List.get?_eq_some.mp hsn
              have hget : (setNode s j (n.update rewards)).get? j
                  = some (n.update rewards) := by
                unfold setNode
                exact List.get?_set_eq_of_lt _ hlt
              have hrw : (n.update rewards).reward_sum = n.reward_sum := by
                simp [InfoSet.update, harr]
              have harr2 : (n.update rewards).arriving_play = none := harr
              obtain ⟨n₁, hn₁, hr₁, ha₁⟩ :=
                IH _ _ _ _ h2 j (n.update rewards) hget harr2
              exact ⟨n₁, hn₁, by rw [hr₁, hrw], ha₁⟩
            · have hget : (setNode s i (n.update rewards)).get? j = some n₀ := by
                unfold setNode
                rw [List.get?_set_ne _ _ (fun he => hji he.symm)]
                exact hj
              exact IH _ _ _ _ h2 j n₀ hget harr

/-- C6: `update` adds exactly one visit, credits `reward_sum` only with the
reward component of the player who made the node arriving play, and leaves
`reward_sum` unchanged on a node with no arriving play; consequently
backpropagation never increments the root `reward_sum`. -/
theorem update_reward_attribution {Card : Type} :
    (∀ (n : InfoSet (Play Card)) (rewards : Fin 5 → Int),
      (n.update rewards).visits = n.visits + 1 ∧
      (n.arriving_play = none →
        (n.update rewards).reward_sum = n.reward_sum) ∧
      (∀ play, n.arriving_play = some play →
        (n.update rewards).reward_sum
          = n.reward_sum + rewards play.player)) ∧
    (∀ (fuel : Nat) (s s2 : List (InfoSet (Play Card))) (nid : Option Nat)
        (rewards : Fin 5 → Int),
      backpropagate fuel s nid rewards = Except.ok s2 →
      ∀ j n₀, s.get? j = some n₀ → n₀.arriving_play = none →
        ∃ n₁, s2.get? j = some n₁ ∧ n₁.reward_sum = n₀.reward_sum) := by
  constructor
  · intro n rewards
    refine ⟨rfl, fun h => ?_, fun play h => ?_⟩
    · simp [InfoSet.update, h]
    · simp [InfoSet.update, h]
  · intro fuel s s2 nid rewards h j n₀ hj harr
    obtain ⟨n₁, hn₁, hr₁, -⟩ :=
      backpropagate_preserves_none_reward fuel s nid rewards s2 h j n₀ hj harr
    exact ⟨n₁, hn₁, hr₁⟩

theorem update_reward_attribution_witness :
    (((InfoSet.fresh (some 0) (some ⟨2, 7⟩) : InfoSet (Play Nat)).update
        (fun q => q.val)).visits
      = (InfoSet.fresh (some 0) (some ⟨2, 7⟩) : InfoSet (Play Nat)).visits
          + 1) ∧
    (((InfoSet.fresh (some 0) (some ⟨2, 7⟩) : InfoSet (Play Nat)).update
        (fun q => q.val)).reward_sum
      = (InfoSet.fresh (some 0) (some ⟨2, 7⟩) :
          InfoSet (Play Nat)).reward_sum + 2) ∧
    (∃ n₁, ((InfoSet.fresh none none : InfoSet (Play Nat)).update
          (fun q => q.val) :: []).get? 0 = some n₁ ∧
      n₁.reward_sum
        = (InfoSet.fresh none none : InfoSet (Play Nat)).reward_sum) :=
  ⟨(update_reward_attribution.1 (InfoSet.fresh (some 0) (some ⟨2, 7⟩))
      (fun q => q.val)).1,
   (update_reward_attribution.1 (InfoSet.fresh (some 0) (some ⟨2, 7⟩))
      (fun q => q.val)).2.2 ⟨2, 7⟩ rfl,
   update_reward_attribution.2 1 [InfoSet.fresh none none]
     [(InfoSet.fresh none none : InfoSet (Play Nat)).update (fun q => q.val)]
     (some 0) (fun q => q.val) rfl 0 (InfoSet.fresh none none) rfl rfl⟩

/-- C2: when the legal-move set at the current decision point is a singleton
`[m]` in every determinization, `ismcts` with any budget of at least one
returns `m`: the first iteration detects it at the root and returns before
any tree work, leaving the store in its initial root-only state. -/
theorem ismcts_single_move {σ Card β : Type} [DecidableEq Card]
    [LinearOrder β] (E : Engine σ Card) (score : InfoSet (Play Card) → β)
    (choice : Nat → Nat) (det : Nat → σ) (fuel : Nat) (itermax : Int)
    (m : Play Card)
    (hm : ∀ i, E.get_legal_plays (det i) = [m])
    (hpos : 1 ≤ itermax) :
    ismcts E score choice det fuel itermax = Except.ok m ∧
    ismctsRun E score choice det fuel itermax.toNat 0
        [InfoSet.fresh none none] 0
      = Except.ok (RunExit.shortCircuit m 0 [InfoSet.fresh none none]) := by
  obtain ⟨n, hn⟩ : ∃ n, itermax.toNat = n + 1 :=
    ⟨itermax.toNat - 1, by omega⟩
  have hone : oneIteration E score choice fuel [InfoSet.fresh none none]
      (det 0) 0 = Except.ok (Sum.inr m) := by
    simp [oneIteration, hm 0]
  have hrun : ismctsRun E score choice det fuel itermax.toNat 0
      [InfoSet.fresh none none] 0
      = Except.ok (RunExit.shortCircuit m 0 [InfoSet.fresh none none]) := by
    rw [hn]
    simp [ismctsRun, hone]
  exact ⟨by simp [ismcts, hrun, Bind.bind, Except.bind], hrun⟩

theorem ismcts_single_move_witness :
    ismcts
        { get_legal_plays := fun _ => [⟨0, 7⟩],
          play := fun st _ => st,
          next_calltype := fun _ => CallType.GAME_OVER,
          gamepoints_rewarded := fun _ _ => 0 : Engine Unit Nat }
        (fun nd => nd.visits) (fun _ => 0) (fun _ => ()) 0 1
      = Except.ok ⟨0, 7⟩ :=
  (ismcts_single_move
    { get_legal_plays := fun _ => [⟨0, 7⟩], play := fun st _ => st,
      next_calltype := fun _ => CallType.GAME_OVER,
      gamepoints_rewarded := fun _ _ => 0 }
    (fun nd => nd.visits) (fun _ => 0) (fun _ => ()) 0 1 ⟨0, 7⟩
    (fun _ => rfl) (by decide)).1

/-- C9: with a non-positive iteration budget the search fails synchronously
instead of returning a move: the iteration loop performs no work at all
(Python range of a non-positive bound is empty) and the final `max` over the
root empty child list raises, surfacing an error to the caller. -/
theorem ismcts_nonpositive_budget {σ Card β : Type} [DecidableEq Card]
    [LinearOrder β] (E : Engine σ Card) (score : InfoSet (Play Card) → β)
    (choice : Nat → Nat) (det : Nat → σ) (fuel : Nat) (itermax : Int)
    (hle : itermax ≤ 0) :
    ismcts E score choice det fuel itermax = Except.error PyErr.valueError ∧
    ismctsRun E score choice det fuel itermax.toNat 0
        [InfoSet.fresh none none] 0
      = Except.ok (RunExit.completed [InfoSet.fresh none none]) := by
  have h0 : itermax.toNat = 0 := by omega
  constructor
  · simp [ismcts, h0, ismctsRun, getNode, InfoSet.fresh, mapExcept, pyMax,
      Bind.bind, Except.bind]
  · rw [h0]
    rfl

theorem ismcts_nonpositive_budget_witness :
    ismcts
        { get_legal_plays := fun _ => [],
          play := fun st _ => st,
          next_calltype := fun _ => CallType.GAME_OVER,
          gamepoints_rewarded := fun _ _ => 0 : Engine Unit Nat }
        (fun nd => nd.visits) (fun _ => 0) (fun _ => ()) 3 (-2)
      = Except.error PyErr.valueError :=
  (ismcts_nonpositive_budget
    { get_legal_plays := fun _ => [], play := fun st _ => st,
      next_calltype := fun _ => CallType.GAME_OVER,
      gamepoints_rewarded := fun _ _ => 0 }
    (fun nd => nd.visits) (fun _ => 0) (fun _ => ()) 3 (-2) (by decide)).1


/-- C3: when every legal play already has a child, `ucb_child_select` with
the UCB key of the source (default exploration constant 0.7) returns a
legal child whose `reward_sum / visits + 0.7 * sqrt(log(avails) / visits)`
value — computed from the statistics held before this call — is maximal
among the legal children, and it bumps the availability counter of every
legal child considered (once per occurrence in the legal list), leaving all
other nodes and fields untouched. -/
theorem ucb_child_select_formula {Card : Type} [DecidableEq Card]
    (s : List (InfoSet (Play Card))) (nid : Nat)
    (legal_plays : List (Play Card)) (node : InfoSet (Play Card))
    (cids : List Nat) (cnodes : List (InfoSet (Play Card)))
    (hnode : getNode s nid = Except.ok node)
    (hne : legal_plays ≠ [])
    (hcids : mapExcept (fun play =>
      match lookupChild node.play_to_children play with
      | some cid => Except.ok cid
      | none => Except.error PyErr.keyError) legal_plays = Except.ok cids)
    (hcnodes : mapExcept (getNode s) cids = Except.ok cnodes)
    (hvis : ∀ c ∈ cnodes, c.visits ≠ 0) :
    ∃ sel selNode,
      ucb_child_select
          (fun c : InfoSet (Play Card) =>
            (c.reward_sum : ℝ) / c.visits
              + 0.7 * Real.sqrt (Real.log c.avails / c.visits))
          s nid legal_plays
        = Except.ok (incrAvails s cids, sel) ∧
      (sel, selNode) ∈ cids.zip cnodes ∧
      (∀ pr ∈ cids.zip cnodes,
        (pr.2.reward_sum : ℝ) / pr.2.visits
            + 0.7 * Real.sqrt (Real.log pr.2.avails / pr.2.visits)
          ≤ (selNode.reward_sum : ℝ) / selNode.visits
            + 0.7 * Real.sqrt (Real.log selNode.avails / selNode.visits)) ∧
      (∀ j c, s.get? j = some c →
        (incrAvails s cids).get? j
          = some { c with avails := c.avails + cids.count j }) ∧
      (∀ j, j ∉ cids → (incrAvails s cids).get? j = s.get? j) := by
  have hlen1 : cids.length = legal_plays.length := mapExcept_ok_length _ _ _ hcids
  have hlen2 : cnodes.length = cids.length := mapExcept_ok_length _ _ _ hcnodes
  have hzlen : (cids.zip cnodes).length = legal_plays.length := by
    rw [List.length_zip, hlen2, min_self, hlen1]
  have hzne : cids.zip cnodes ≠ [] := by
    intro hz
    rw [hz] at hzlen
    exact hne (List.length_eq_zero.mp hzlen.symm)
  obtain ⟨sel, hmax⟩ := pyMax_isSome
    (fun pr : Nat × InfoSet (Play Card) =>
      (pr.2.reward_sum : ℝ) / pr.2.visits
        + 0.7 * Real.sqrt (Real.log pr.2.avails / pr.2.visits))
    (cids.zip cnodes) hzne
  have hany : cnodes.any (fun c => c.visits = 0) = false := by
    rw [List.any_eq_false]
    intro c hc
    simp [hvis c hc]
  have hsel := pyMax_le _ _ _ hmax
  refine ⟨sel.1, sel.2, ?_, ?_, ?_, ?_, ?_⟩
  · simp only [ucb_child_select, hnode, hcids, hcnodes, hany, hmax,
      Bind.bind, Except.bind, Bool.false_eq_true, if_false]
  · exact hsel.1
  · exact hsel.2
  · intro j c hc
    rw [incrAvails_get, hc]
  · intro j hj
    rw [incrAvails_get]
    cases hc : s.get? j with
    | none => rfl
    | some c =>
        rw [List.count_eq_zero.mpr hj]
        rfl

/-- The concrete two-child selection scenario used by the C3 witness. -/
def nodeWitRoot : InfoSet (Play Nat) :=
  { parent := none, arriving_play := none, children := [1, 2],
    play_to_children := [(⟨0, 1⟩, 1), (⟨0, 2⟩, 2)], reward_sum := 0,
    visits := 2, avails := 1, tried_plays := [⟨0, 1⟩, ⟨0, 2⟩] }

def nodeWitA : InfoSet (Play Nat) :=
  { parent := some 0, arriving_play := some ⟨0, 1⟩, children := [],
    play_to_children := [], reward_sum := 0, visits := 1, avails := 1,
    tried_plays := [] }

def nodeWitB : InfoSet (Play Nat) :=
  { parent := some 0, arriving_play := some ⟨0, 2⟩, children := [],
    play_to_children := [], reward_sum := 1, visits := 1, avails := 1,
    tried_plays := [] }

theorem ucb_child_select_formula_witness :
    ∃ sel selNode,
      ucb_child_select
          (fun c : InfoSet (Play Nat) =>
            (c.reward_sum : ℝ) / c.visits
              + 0.7 * Real.sqrt (Real.log c.avails / c.visits))
          [nodeWitRoot, nodeWitA, nodeWitB] 0 [⟨0, 1⟩, ⟨0, 2⟩]
        = Except.ok (incrAvails [nodeWitRoot, nodeWitA, nodeWitB] [1, 2], sel) ∧
      (sel, selNode) ∈ ([1, 2].zip [nodeWitA, nodeWitB]) ∧
      (∀ pr ∈ ([1, 2].zip [nodeWitA, nodeWitB]),
        (pr.2.reward_sum : ℝ) / pr.2.visits
            + 0.7 * Real.sqrt (Real.log pr.2.avails / pr.2.visits)
          ≤ (selNode.reward_sum : ℝ) / selNode.visits
            + 0.7 * Real.sqrt (Real.log selNode.avails / selNode.visits)) ∧
      (∀ j c, [nodeWitRoot, nodeWitA, nodeWitB].get? j = some c →
        (incrAvails [nodeWitRoot, nodeWitA, nodeWitB] [1, 2]).get? j
          = some { c with avails := c.avails + List.count j [1, 2] }) ∧
      (∀ j, j ∉ [1, 2] →
        (incrAvails [nodeWitRoot, nodeWitA, nodeWitB] [1, 2]).get? j
          = [nodeWitRoot, nodeWitA, nodeWitB].get? j) :=
  ucb_child_select_formula [nodeWitRoot, nodeWitA, nodeWitB] 0
    [⟨0, 1⟩, ⟨0, 2⟩] nodeWitRoot [1, 2] [nodeWitA, nodeWitB] rfl
    (by simp) rfl rfl (by decide)

/-- C4: when the run completes its whole budget without a single-move
short-circuit, the move `ismcts` returns is the arriving play of the root
child with the highest visit count; on ties the first child in the root
child-list order wins (every strictly earlier child has strictly fewer
visits). -/
theorem ismcts_most_robust_child {σ Card β : Type} [DecidableEq Card]
    [LinearOrder β] (E : Engine σ Card) (score : InfoSet (Play Card) → β)
    (choice : Nat → Nat) (det : Nat → σ) (fuel : Nat) (itermax : Int)
    (s : List (InfoSet (Play Card))) (root : InfoSet (Play Card))
    (cnodes : List (InfoSet (Play Card)))
    (hrun : ismctsRun E score choice det fuel itermax.toNat 0
        [InfoSet.fresh none none] 0 = Except.ok (RunExit.completed s))
    (hroot : getNode s 0 = Except.ok root)
    (hchild : mapExcept (getNode s) root.children = Except.ok cnodes)
    (hne : cnodes ≠ [])
    (harr : ∀ c ∈ cnodes, c.arriving_play ≠ none) :
    ∃ best l₁ l₂ play,
      cnodes = l₁ ++ best :: l₂ ∧
      (∀ c ∈ l₁, c.visits < best.visits) ∧
      (∀ c ∈ cnodes, c.visits ≤ best.visits) ∧
      best.arriving_play = some play ∧
      ismcts E score choice det fuel itermax = Except.ok play := by
  obtain ⟨best, hmax⟩ := pyMax_isSome
    (fun c : InfoSet (Play Card) => c.visits) cnodes hne
  obtain ⟨l₁, l₂, heq, hlt, hle2⟩ := pyMax_spec _ _ _ hmax
  have hmem : best ∈ cnodes := (pyMax_le _ _ _ hmax).1
  have hub : ∀ c ∈ cnodes, c.visits ≤ best.visits := (pyMax_le _ _ _ hmax).2
  cases hplay : best.arriving_play with
  | none => exact absurd hplay (harr best hmem)
  | some play =>
      refine ⟨best, l₁, l₂, play, heq, hlt, hub, hplay, ?_⟩
      simp only [ismcts, hrun, hroot, hchild, hmax, hplay,
        Bind.bind, Except.bind]

/-- The engine of the C4 witness: a one-move game with two legal root
plays, ending immediately after the first play. -/
def engineWit : Engine Nat Nat :=
  { get_legal_plays := fun st =>
      if st = 0 then [⟨0, 1⟩, ⟨0, 2⟩] else [],
    play := fun st _ => st + 1,
    next_calltype := fun st =>
      if st = 0 then CallType.PLAY else CallType.GAME_OVER,
    gamepoints_rewarded := fun _ _ => 1 }

/-- The root node of the final store the C4 witness run builds. -/
def rootWitFinal : InfoSet (Play Nat) :=
  { parent := none, arriving_play := none, children := [1],
    play_to_children := [(⟨0, 1⟩, 1)], reward_sum := 0, visits := 1,
    avails := 1, tried_plays := [⟨0, 1⟩] }

/-- The single expanded child of the final store the C4 witness builds. -/
def childWitFinal : InfoSet (Play Nat) :=
  { parent := some 0, arriving_play := some ⟨0, 1⟩, children := [],
    play_to_children := [], reward_sum := 1, visits := 1, avails := 1,
    tried_plays := [] }

theorem ismcts_most_robust_child_witness :
    ∃ best l₁ l₂ play,
      [childWitFinal] = l₁ ++ best :: l₂ ∧
      (∀ c ∈ l₁, c.visits < best.visits) ∧
      (∀ c ∈ [childWitFinal], c.visits ≤ best.visits) ∧
      best.arriving_play = some play ∧
      ismcts engineWit (fun nd : InfoSet (Play Nat) => nd.visits)
          (fun _ => 0) (fun _ => 0) 4 1 = Except.ok play :=
  ismcts_most_robust_child engineWit
    (fun nd : InfoSet (Play Nat) => nd.visits) (fun _ => 0) (fun _ => 0) 4 1
    [rootWitFinal, childWitFinal] rootWitFinal [childWitFinal]
    rfl rfl rfl (by simp) (by decide)


/-! ## The inference machinery (`Inferences` / `Inference` / `CardSet`)

`CardSet.__init__` assigns exactly one instance attribute, `cards_set`;
attribute lookup on an instance is modelled by `CardSet.getattr`, and the
string parsing that `CardSet.__init__` performs (it lives in the external
card module) by oracle functions. -/

/-- The attribute names read on `CardSet` instances. -/
inductive PyAttr where
  | cards : PyAttr
  | cards_set : PyAttr
deriving DecidableEq

/-- A set of cards (class `CardSet`): its only instance attribute. -/
structure CardSet (Card : Type) where
  cards_set : List Card

/-- Python attribute lookup on a `CardSet` instance: `__init__` only ever
assigns `cards_set`, so reading `cards` finds nothing (an
`AttributeError`). -/
def CardSet.getattr {Card : Type} (cs : CardSet Card) :
    PyAttr → Option (List Card)
  | PyAttr.cards_set => some cs.cards_set
  | PyAttr.cards => none

/-- `CardSet.__add__`: unions `self.cards_set` with `other.cards` — an
attribute no `CardSet` instance ever defines, so the lookup raises. -/
def CardSet.add {Card : Type} [DecidableEq Card] (self other : CardSet Card) :
    Except PyErr (CardSet Card) :=
  match other.getattr PyAttr.cards with
  | some cards => Except.ok { cards_set := self.cards_set.union cards }
  | none => Except.error PyErr.attributeError

/-- An inference about one player (class `Inference`). -/
structure Inference (Card : Type) where
  player : Fin 5
  has : Bool
  cardset : CardSet Card

/-- `Inference.__iadd__`: assert matching `player` and `has`, then replace
the card set by the `CardSet.__add__` of the two sets. -/
def Inference.iadd {Card : Type} [DecidableEq Card]
    (self other : Inference Card) : Except PyErr (Inference Card) :=
  if self.player = other.player then
    if self.has = other.has then do
      let cs ← CardSet.add self.cardset other.cardset
      Except.ok { self with cardset := cs }
    else Except.error PyErr.assertionError
  else Except.error PyErr.assertionError

/-- The per-player pairs of empty inferences `Inferences.__init__` starts
from. -/
def Inferences.base {Card : Type} : List (List (Inference Card)) :=
  (List.finRange 5).map (fun p =>
    [{ player := p, has := true, cardset := { cards_set := [] } },
     { player := p, has := false, cardset := { cards_set := [] } }])

/-- `Inferences.__init__`: build the base inference table, then accumulate
the observer's hand inference and its complement via `+=`, then scan the
previous tricks for suit-following violations.  The card-string parsing of
the two `CardSet(...)` constructor calls and the trick-scanning loop (both
of which depend on the external card module) are oracle parameters
`parseHand`, `parseComp` and `trickLoop`; the error raised earlier makes
them unreachable. -/
def Inferences.init {Card : Type} [DecidableEq Card]
    (pers : Perspective Card)
    (parseHand parseComp : List Card → CardSet Card)
    (trickLoop : List (List (Inference Card)) →
      Except PyErr (List (List (Inference Card)))) :
    Except PyErr (List (List (Inference Card))) := do
  let base : List (List (Inference Card)) := Inferences.base
  let entry0 : Inference Card :=
    { player := pers.player, has := true, cardset := { cards_set := [] } }
  let entry1 : Inference Card :=
    { player := pers.player, has := false, cardset := { cards_set := [] } }
  let upd0 ← Inference.iadd entry0
    { player := pers.player, has := true, cardset := parseHand pers.hand }
  let upd1 ← Inference.iadd entry1
    { player := pers.player, has := false, cardset := parseComp pers.hand }
  trickLoop (base.map (fun row =>
    if (row.head?.map (fun inf => inf.player)) = some pers.player then
      [upd0, upd1] else row))

/-- C10: constructing `Inferences(perspective)` always raises an
`AttributeError`: the `+=` on the observer's hand inference calls
`Inference.__iadd__`, hence `CardSet.__add__`, which reads the undefined
attribute `cards` of the other card set (only `cards_set` exists), so the
inference machinery fails for every perspective before any inference is
recorded. -/
theorem inferences_init_attribute_error {Card : Type} [DecidableEq Card]
    (pers : Perspective Card)
    (parseHand parseComp : List Card → CardSet Card)
    (trickLoop : List (List (Inference Card)) →
      Except PyErr (List (List (Inference Card)))) :
    Inferences.init pers parseHand parseComp trickLoop
      = Except.error PyErr.attributeError := by
  simp [Inferences.init, Inference.iadd, CardSet.add, CardSet.getattr,
    Bind.bind, Except.bind]


/-! ## Store well-formedness for the search loop

The invariants every store built by `ismcts` satisfies at iteration
boundaries: the root sits at id 0 with no parent and no arriving play,
parent ids strictly decrease, the move map mirrors the tried set and points
at real non-root nodes, and the child lists agree with the parent
back-references. -/

structure StructInv {Card : Type} (s : List (InfoSet (Play Card))) : Prop where
  root_some : ∃ r, s.get? 0 = some r
  root_none : ∀ r, s.get? 0 = some r → r.parent = none ∧ r.arriving_play = none
  parent_lt : ∀ i n p, s.get? i = some n → n.parent = some p → p < i
  nonroot_parent : ∀ i n, s.get? i = some n → i ≠ 0 →
    (∃ p, n.parent = some p) ∧ (∃ play, n.arriving_play = some play)
  p2c_tried : ∀ i n, s.get? i = some n →
    n.play_to_children.map Prod.fst = n.tried_plays
  p2c_bounds : ∀ i n, s.get? i = some n →
    ∀ pr ∈ n.play_to_children, 0 < pr.2 ∧ pr.2 < s.length
  children_nodup : ∀ i n, s.get? i = some n → n.children.Nodup
  children_parent : ∀ i n, s.get? i = some n → ∀ j ∈ n.children,
    ∃ m, s.get? j = some m ∧ m.parent = some i
  parent_children : ∀ i n, s.get? i = some n → ∀ j m, s.get? j = some m →
    m.parent = some i → j ∈ n.children

/-- Every non-root node has been visited at least once. -/
def VisitsPos {Card : Type} (s : List (InfoSet (Play Card))) : Prop :=
  ∀ j n, s.get? j = some n → j ≠ 0 → 1 ≤ n.visits

/-- Every node's availability counter is at least one. -/
def AvailsPos {Card : Type} (s : List (InfoSet (Play Card))) : Prop :=
  ∀ j n, s.get? j = some n → 1 ≤ n.avails

/-- `s2` is `s` with only availability counters possibly increased. -/
def SameButAvails {Card : Type} (s s2 : List (InfoSet (Play Card))) : Prop :=
  s2.length = s.length ∧
  ∀ j n, s.get? j = some n → ∃ n2, s2.get? j = some n2 ∧
    n2.parent = n.parent ∧ n2.arriving_play = n.arriving_play ∧
    n2.children = n.children ∧ n2.play_to_children = n.play_to_children ∧
    n2.tried_plays = n.tried_plays ∧ n2.reward_sum = n.reward_sum ∧
    n2.visits = n.visits ∧ n.avails ≤ n2.avails

theorem sameButAvails_refl {Card : Type} (s : List (InfoSet (Play Card))) :
    SameButAvails s s :=
  ⟨rfl, fun _ n h => ⟨n, h, rfl, rfl, rfl, rfl, rfl, rfl, rfl, le_refl _⟩⟩

theorem sameButAvails_trans {Card : Type}
    {s₁ s₂ s₃ : List (InfoSet (Play Card))}
    (h₁ : SameButAvails s₁ s₂) (h₂ : SameButAvails s₂ s₃) :
    SameButAvails s₁ s₃ := by
  refine ⟨h₂.1.trans h₁.1, fun j n h => ?_⟩
  obtain ⟨n₂, hg₂, e₁, e₂, e₃, e₄, e₅, e₆, e₇, e₈⟩ := h₁.2 j n h
  obtain ⟨n₃, hg₃, f₁, f₂, f₃, f₄, f₅, f₆, f₇, f₈⟩ := h₂.2 j n₂ hg₂
  exact ⟨n₃, hg₃, f₁.trans e₁, f₂.trans e₂, f₃.trans e₃, f₄.trans e₄,
    f₅.trans e₅, f₆.trans e₆, f₇.trans e₇, le_trans e₈ f₈⟩

theorem sameButAvails_back {Card : Type}
    {s s2 : List (InfoSet (Play Card))} (h : SameButAvails s s2)
    (j : Nat) (n2 : InfoSet (Play Card)) (hg : s2.get? j = some n2) :
    ∃ n, s.get? j = some n := by
  obtain ⟨hlt2, -⟩ := List.get?_eq_some.mp hg
  have hlt : j < s.length := h.1 ▸ hlt2
  exact ⟨s.get ⟨j, hlt⟩, List.get?_eq_get hlt⟩

theorem incrAvails_length {P : Type} :
    ∀ (cids : List Nat) (s : List (InfoSet P)),
      (incrAvails s cids).length = s.length := by
  intro cids
  induction cids with
  | nil => intro s; rfl
  | cons cid rest IH =>
    intro s
    have hstep : incrAvails s (cid :: rest)
        = incrAvails (match s.get? cid with
            | some c => s.set cid { c with avails := c.avails + 1 }
            | none => s) rest := by
      simp only [incrAvails, List.foldl_cons]
    rw [hstep, IH]
    cases hc : s.get? cid with
    | none => rfl
    | some c => simp

theorem incrAvails_sameButAvails {Card : Type}
    (s : List (InfoSet (Play Card))) (cids : List Nat) :
    SameButAvails s (incrAvails s cids) := by
  constructor
  · exact incrAvails_length cids s
  · intro j n h
    rw [incrAvails_get, h]
    exact ⟨_, rfl, rfl, rfl, rfl, rfl, rfl, rfl, rfl, Nat.le_add_right _ _⟩


theorem forall2_mem_right {A G : Type} (R : A → G → Prop) :
    ∀ (l : List A) (l2 : List G), List.Forall₂ R l l2 →
      ∀ b ∈ l2, ∃ a ∈ l, R a b := by
  intro l l2 hf
  induction hf with
  | nil => intro b hb; cases hb
  | cons hfa _ IH =>
      intro b hb
      rcases List.mem_cons.mp hb with hb | hb
      · subst hb
        exact ⟨_, List.mem_cons_self _ _, hfa⟩
      · obtain ⟨a, ha, hfa2⟩ := IH b hb
        exact ⟨a, List.mem_cons_of_mem _ ha, hfa2⟩

theorem mapExcept_mem {A G : Type} (f : A → Except PyErr G) :
    ∀ (l : List A) (l2 : List G), mapExcept f l = Except.ok l2 →
      ∀ b ∈ l2, ∃ a ∈ l, f a = Except.ok b := fun l l2 h =>
  forall2_mem_right _ l l2 (mapExcept_ok_forall f l l2 h)

theorem forall2_zip {A G : Type} (R : A → G → Prop) :
    ∀ (l : List A) (l2 : List G), List.Forall₂ R l l2 →
      ∀ pr ∈ l.zip l2, R pr.1 pr.2 := by
  intro l l2 hf
  induction hf with
  | nil => intro pr hpr; cases hpr
  | cons hfa _ IH =>
      intro pr hpr
      rw [List.zip_cons_cons] at hpr
      rcases List.mem_cons.mp hpr with hpr | hpr
      · subst hpr; exact hfa
      · exact IH pr hpr

theorem mapExcept_zip {A G : Type} (f : A → Except PyErr G) :
    ∀ (l : List A) (l2 : List G), mapExcept f l = Except.ok l2 →
      ∀ pr ∈ l.zip l2, f pr.1 = Except.ok pr.2 := fun l l2 h =>
  forall2_zip _ l l2 (mapExcept_ok_forall f l l2 h)

theorem mapExcept_error {A G : Type} (f : A → Except PyErr G) :
    ∀ (l : List A) (e : PyErr), mapExcept f l = Except.error e →
      ∃ a ∈ l, f a = Except.error e := by
  intro l
  induction l with
  | nil => intro e h; cases h
  | cons a l IH =>
    intro e h
    simp only [mapExcept] at h
    cases hfa : f a with
    | error e2 =>
        rw [hfa] at h
        have : e2 = e := by simpa [Bind.bind, Except.bind] using h
        subst this
        exact ⟨a, List.mem_cons_self _ _, hfa⟩
    | ok b =>
        rw [hfa] at h
        cases hrest : mapExcept f l with
        | error e2 =>
            rw [hrest] at h
            have : e2 = e := by simpa [Bind.bind, Except.bind] using h
            subst this
            obtain ⟨a2, ha2, hfa2⟩ := IH _ hrest
            exact ⟨a2, List.mem_cons_of_mem _ ha2, hfa2⟩
        | ok bs =>
            rw [hrest] at h
            exact absurd h (by simp [Bind.bind, Except.bind])

theorem lookupChild_mem {P : Type} [DecidableEq P]
    (m : List (P × Nat)) (play : P) (cid : Nat)
    (h : lookupChild m play = some cid) : ∃ pr ∈ m, pr.2 = cid := by
  unfold lookupChild at h
  cases hf : m.find? (fun pr => pr.1 = play) with
  | none => rw [hf] at h; cases h
  | some pr =>
      rw [hf] at h
      cases h
      exact ⟨pr, List.mem_of_find?_eq_some hf, rfl⟩

theorem structInv_sameButAvails {Card : Type}
    {s s2 : List (InfoSet (Play Card))}
    (hs : StructInv s) (h : SameButAvails s s2) : StructInv s2 := by
  have hb : ∀ j n2, s2.get? j = some n2 → ∃ n, s.get? j = some n ∧
      n2.parent = n.parent ∧ n2.arriving_play = n.arriving_play ∧
      n2.children = n.children ∧ n2.play_to_children = n.play_to_children ∧
      n2.tried_plays = n.tried_plays := by
    intro j n2 hg
    obtain ⟨n, hn⟩ := sameButAvails_back h j n2 hg
    obtain ⟨n2x, hgx, e₁, e₂, e₃, e₄, e₅, -, -, -⟩ := h.2 j n hn
    have : n2x = n2 := Option.some.inj (hgx.symm.trans hg)
    subst this
    exact ⟨n, hn, e₁, e₂, e₃, e₄, e₅⟩
  constructor
  · obtain ⟨r, hr⟩ := hs.root_some
    obtain ⟨r2, hr2, -⟩ := h.2 0 r hr
    exact ⟨r2, hr2⟩
  · intro r2 hr2
    obtain ⟨r, hr, e₁, e₂, -, -, -⟩ := hb 0 r2 hr2
    obtain ⟨f₁, f₂⟩ := hs.root_none r hr
    exact ⟨e₁.trans f₁, e₂.trans f₂⟩
  · intro i n2 p hg hp
    obtain ⟨n, hn, e₁, -, -, -, -⟩ := hb i n2 hg
    exact hs.parent_lt i n p hn (e₁ ▸ hp)
  · intro i n2 hg hi
    obtain ⟨n, hn, e₁, e₂, -, -, -⟩ := hb i n2 hg
    obtain ⟨⟨p, hp⟩, ⟨play, hplay⟩⟩ := hs.nonroot_parent i n hn hi
    exact ⟨⟨p, e₁ ▸ hp⟩, ⟨play, e₂ ▸ hplay⟩⟩
  · intro i n2 hg
    obtain ⟨n, hn, -, -, -, e₄, e₅⟩ := hb i n2 hg
    rw [e₄, e₅]
    exact hs.p2c_tried i n hn
  · intro i n2 hg pr hpr
    obtain ⟨n, hn, -, -, -, e₄, -⟩ := hb i n2 hg
    have := hs.p2c_bounds i n hn pr (e₄ ▸ hpr)
    have hlen := h.1
    omega
  · intro i n2 hg
    obtain ⟨n, hn, -, -, e₃, -, -⟩ := hb i n2 hg
    rw [e₃]
    exact hs.children_nodup i n hn
  · intro i n2 hg j hj
    obtain ⟨n, hn, -, -, e₃, -, -⟩ := hb i n2 hg
    obtain ⟨m, hm, hmp⟩ := hs.children_parent i n hn j (e₃ ▸ hj)
    obtain ⟨m2, hm2, f₁, -, -, -, -, -, -, -⟩ := h.2 j m hm
    exact ⟨m2, hm2, f₁.trans hmp⟩
  · intro i n2 hg j m2 hm2 hmp
    obtain ⟨n, hn, -, -, e₃, -, -⟩ := hb i n2 hg
    obtain ⟨m, hm, f₁, -, -, -, -⟩ := hb j m2 hm2
    rw [e₃]
    exact hs.parent_children i n hn j m hm (f₁ ▸ hmp)

theorem visitsPos_sameButAvails {Card : Type}
    {s s2 : List (InfoSet (Play Card))}
    (hv : VisitsPos s) (h : SameButAvails s s2) : VisitsPos s2 := by
  intro j n2 hg hj
  obtain ⟨n, hn⟩ := sameButAvails_back h j n2 hg
  obtain ⟨n2x, hgx, -, -, -, -, -, -, e₇, -⟩ := h.2 j n hn
  have : n2x = n2 := Option.some.inj (hgx.symm.trans hg)
  subst this
  rw [e₇]
  exact hv j n hn hj

theorem availsPos_sameButAvails {Card : Type}
    {s s2 : List (InfoSet (Play Card))}
    (ha : AvailsPos s) (h : SameButAvails s s2) : AvailsPos s2 := by
  intro j n2 hg
  obtain ⟨n, hn⟩ := sameButAvails_back h j n2 hg
  obtain ⟨n2x, hgx, -, -, -, -, -, -, -, e₈⟩ := h.2 j n hn
  have : n2x = n2 := Option.some.inj (hgx.symm.trans hg)
  subst this
  exact le_trans (ha j n hn) e₈

/-- Under the store invariants, `ucb_child_select` can never raise the
`ZeroDivisionError` of a zero visit count, and on success it returns the
availability-bumped store together with the id of an existing non-root
node. -/
theorem ucb_child_select_analysis {Card β : Type} [DecidableEq Card]
    [LinearOrder β] (score : InfoSet (Play Card) → β)
    (s : List (InfoSet (Play Card))) (nid : Nat)
    (legal : List (Play Card)) (hs : StructInv s) (hv : VisitsPos s) :
    (ucb_child_select score s nid legal
      ≠ Except.error PyErr.zeroDivision) ∧
    (∀ s2 cid, ucb_child_select score s nid legal = Except.ok (s2, cid) →
      SameButAvails s s2 ∧ 0 < cid ∧ cid < s.length) := by
  cases hg : s.get? nid with
  | none =>
      have hr : ucb_child_select score s nid legal
          = Except.error PyErr.indexError := by
        simp only [ucb_child_select, getNode, hg, Bind.bind, Except.bind]
      rw [hr]
      exact ⟨fun hc => PyErr.noConfusion (Except.error.inj hc),
        fun s2 cid h => Except.noConfusion h⟩
  | some node =>
      have hnode : getNode s nid = Except.ok node := (getNode_ok s nid node).mpr hg
      cases hcids : mapExcept (fun play =>
          match lookupChild node.play_to_children play with
          | some cid => Except.ok cid
          | none => Except.error PyErr.keyError) legal with
      | error e =>
          have he : e = PyErr.keyError := by
            obtain ⟨a, -, hfa⟩ := mapExcept_error _ legal e hcids
            cases hl : lookupChild node.play_to_children a with
            | some cid => rw [hl] at hfa; cases hfa
            | none => rw [hl] at hfa; exact (Except.error.inj hfa).symm
          have hr : ucb_child_select score s nid legal = Except.error e := by
            simp only [ucb_child_select, hnode, hcids, Bind.bind, Except.bind]
          rw [hr, he]
          exact ⟨fun hc => PyErr.noConfusion (Except.error.inj hc),
            fun s2 cid h => Except.noConfusion h⟩
      | ok cids =>
          have hbounds : ∀ cid ∈ cids, 0 < cid ∧ cid < s.length := by
            intro cid hcid
            obtain ⟨play, -, hfa⟩ := mapExcept_mem _ legal cids hcids cid hcid
            cases hl : lookupChild node.play_to_children play with
            | none => rw [hl] at hfa; cases hfa
            | some cid2 =>
                rw [hl] at hfa
                have hce : cid2 = cid := Except.ok.inj hfa
                subst hce
                obtain ⟨pr, hpr, hpr2⟩ := lookupChild_mem _ _ _ hl
                have := hs.p2c_bounds nid node hg pr hpr
                omega
          cases hcn : mapExcept (getNode s) cids with
          | error e =>
              have he : e = PyErr.indexError := by
                obtain ⟨cid, -, hfa⟩ := mapExcept_error _ cids e hcn
                unfold getNode at hfa
                cases hgc : s.get? cid with
                | none => rw [hgc] at hfa; exact (Except.error.inj hfa).symm
                | some c => rw [hgc] at hfa; cases hfa
              have hr : ucb_child_select score s nid legal = Except.error e := by
                simp only [ucb_child_select, hnode, hcids, hcn, Bind.bind,
                  Except.bind]
              rw [hr, he]
              exact ⟨fun hc => PyErr.noConfusion (Except.error.inj hc),
                fun s2 cid h => Except.noConfusion h⟩
          | ok cnodes =>
              have hany : cnodes.any (fun c => c.visits = 0) = false := by
                rw [List.any_eq_false]
                intro c hc
                obtain ⟨cid, hcid, hfa⟩ := mapExcept_mem _ cids cnodes hcn c hc
                have hgc : s.get? cid = some c := (getNode_ok _ _ _).mp hfa
                have h0 : 0 < cid := (hbounds cid hcid).1
                have hvc := hv cid c hgc (by omega)
                simp
                omega
              cases hmax : pyMax
                  (fun pr : Nat × InfoSet (Play Card) => score pr.2)
                  (cids.zip cnodes) with
              | none =>
                  have hr : ucb_child_select score s nid legal
                      = Except.error PyErr.valueError := by
                    simp only [ucb_child_select, hnode, hcids, hcn, hany,
                      hmax, Bind.bind, Except.bind, Bool.false_eq_true,
                      if_false]
                  rw [hr]
                  exact ⟨fun hc => PyErr.noConfusion (Except.error.inj hc),
                    fun s2 cid h => Except.noConfusion h⟩
              | some sel =>
                  have hr : ucb_child_select score s nid legal
                      = Except.ok (incrAvails s cids, sel.1) := by
                    simp only [ucb_child_select, hnode, hcids, hcn, hany,
                      hmax, Bind.bind, Except.bind, Bool.false_eq_true,
                      if_false]
                  rw [hr]
                  refine ⟨fun hc => Except.noConfusion hc,
                    fun s2 cid h => ?_⟩
                  have hp := Except.ok.inj h
                  have h1 : incrAvails s cids = s2 := congrArg Prod.fst hp
                  have h2 : sel.1 = cid := congrArg Prod.snd hp
                  subst h1
                  subst h2
                  have hselmem : sel ∈ cids.zip cnodes := (pyMax_le _ _ _ hmax).1
                  have hmem : sel.1 ∈ cids := (List.mem_zip hselmem).1
                  exact ⟨incrAvails_sameButAvails s cids, hbounds sel.1 hmem⟩


/-- The selection loop only bumps availability counters, never raises a
zero-division error, and exits either at its entry node or at an existing
non-root node, always with the loop condition false. -/
theorem selectLoop_analysis {σ Card β : Type} [DecidableEq Card]
    [LinearOrder β] (E : Engine σ Card) (score : InfoSet (Play Card) → β) :
    ∀ (fuel : Nat) (s : List (InfoSet (Play Card))) (nid : Nat) (st : σ)
      (legal : List (Play Card)),
      StructInv s → VisitsPos s →
      (selectLoop E score fuel s nid st legal
        ≠ Except.error PyErr.zeroDivision) ∧
      (∀ s2 nid2 st2 legal2,
        selectLoop E score fuel s nid st legal
          = Except.ok (s2, nid2, st2, legal2) →
        SameButAvails s s2 ∧
        ((s2 = s ∧ nid2 = nid ∧ st2 = st ∧ legal2 = legal)
          ∨ (0 < nid2 ∧ nid2 < s.length)) ∧
        (∃ node2, getNode s2 nid2 = Except.ok node2 ∧
          (legal2 = [] ∨ node2.untried_plays legal2 ≠ []))) := by
  intro fuel
  induction fuel with
  | zero =>
    intro s nid st legal hs hv
    cases hg : s.get? nid with
    | none =>
        have hr : selectLoop E score 0 s nid st legal
            = Except.error PyErr.indexError := by
          simp only [selectLoop, getNode, hg, Bind.bind, Except.bind]
        rw [hr]
        exact ⟨fun hc => PyErr.noConfusion (Except.error.inj hc),
          fun s2 nid2 st2 legal2 h => Except.noConfusion h⟩
    | some node =>
        have hnode : getNode s nid = Except.ok node :=
          (getNode_ok s nid node).mpr hg
        by_cases hcond : legal ≠ [] ∧ node.untried_plays legal = []
        · have hr : selectLoop E score 0 s nid st legal
              = Except.error PyErr.outOfFuel := by
            simp only [selectLoop, hnode, Bind.bind, Except.bind,
              if_pos hcond]
          rw [hr]
          exact ⟨fun hc => PyErr.noConfusion (Except.error.inj hc),
            fun s2 nid2 st2 legal2 h => Except.noConfusion h⟩
        · have hr : selectLoop E score 0 s nid st legal
              = Except.ok (s, nid, st, legal) := by
            simp only [selectLoop, hnode, Bind.bind, Except.bind,
              if_neg hcond]
          rw [hr]
          refine ⟨fun hc => Except.noConfusion hc,
            fun s2 nid2 st2 legal2 h => ?_⟩
          injection h with hp
          injection hp with h1 hp
          injection hp with h2 hp
          injection hp with h3 h4
          subst h1; subst h2; subst h3; subst h4
          push_neg at hcond
          refine ⟨sameButAvails_refl s, Or.inl ⟨rfl, rfl, rfl, rfl⟩, node,
            hnode, ?_⟩
          by_cases hleg : legal = []
          · exact Or.inl hleg
          · exact Or.inr (hcond hleg)
  | succ fuel IH =>
    intro s nid st legal hs hv
    cases hg : s.get? nid with
    | none =>
        have hr : selectLoop E score (fuel + 1) s nid st legal
            = Except.error PyErr.indexError := by
          simp only [selectLoop, getNode, hg, Bind.bind, Except.bind]
        rw [hr]
        exact ⟨fun hc => PyErr.noConfusion (Except.error.inj hc),
          fun s2 nid2 st2 legal2 h => Except.noConfusion h⟩
    | some node =>
        have hnode : getNode s nid = Except.ok node :=
          (getNode_ok s nid node).mpr hg
        by_cases hcond : legal ≠ [] ∧ node.untried_plays legal = []
        · cases hu : ucb_child_select score s nid legal with
          | error e =>
              have hr : selectLoop E score (fuel + 1) s nid st legal
                  = Except.error e := by
                simp only [selectLoop, hnode, Bind.bind, Except.bind,
                  if_pos hcond, hu]
              rw [hr]
              refine ⟨fun hc => ?_, fun s2 nid2 st2 legal2 h =>
                Except.noConfusion h⟩
              have he := Except.error.inj hc
              have hzd := (ucb_child_select_analysis score s nid legal hs hv).1
              rw [hu, he] at hzd
              exact hzd rfl
          | ok pr =>
              obtain ⟨s1, cid⟩ := pr
              obtain ⟨hsame, hcid0, hcidlt⟩ :=
                (ucb_child_select_analysis score s nid legal hs hv).2
                  s1 cid hu
              have hs1 : StructInv s1 := structInv_sameButAvails hs hsame
              have hv1 : VisitsPos s1 := visitsPos_sameButAvails hv hsame
              have hlt1 : cid < s1.length := by
                rw [hsame.1]; exact hcidlt
              obtain ⟨cnode, hcnode⟩ : ∃ c, s1.get? cid = some c :=
                ⟨s1.get ⟨cid, hlt1⟩, List.get?_eq_get hlt1⟩
              obtain ⟨-, play, hplay⟩ :=
                hs1.nonroot_parent cid cnode hcnode (by omega)
              have hr : selectLoop E score (fuel + 1) s nid st legal
                  = selectLoop E score fuel s1 cid (E.play st play)
                      (E.get_legal_plays (E.play st play)) := by
                simp only [selectLoop, hnode, Bind.bind, Except.bind,
                  if_pos hcond, hu, (getNode_ok s1 cid cnode).mpr hcnode,
                  hplay]
              rw [hr]
              obtain ⟨IH1, IH2⟩ := IH s1 cid (E.play st play)
                (E.get_legal_plays (E.play st play)) hs1 hv1
              refine ⟨IH1, fun s2 nid2 st2 legal2 hok => ?_⟩
              obtain ⟨hsame2, hnid2, hexit⟩ := IH2 s2 nid2 st2 legal2 hok
              refine ⟨sameButAvails_trans hsame hsame2, ?_, hexit⟩
              rcases hnid2 with ⟨-, he, -, -⟩ | ⟨hb1, hb2⟩
              · subst he
                exact Or.inr ⟨hcid0, hcidlt⟩
              · refine Or.inr ⟨hb1, ?_⟩
                rw [hsame.1] at hb2
                exact hb2
        · have hr : selectLoop E score (fuel + 1) s nid st legal
              = Except.ok (s, nid, st, legal) := by
            simp only [selectLoop, hnode, Bind.bind, Except.bind,
              if_neg hcond]
          rw [hr]
          refine ⟨fun hc => Except.noConfusion hc,
            fun s2 nid2 st2 legal2 h => ?_⟩
          injection h with hp
          injection hp with h1 hp
          injection hp with h2 hp
          injection hp with h3 h4
          subst h1; subst h2; subst h3; subst h4
          push_neg at hcond
          refine ⟨sameButAvails_refl s, Or.inl ⟨rfl, rfl, rfl, rfl⟩, node,
            hnode, ?_⟩
          by_cases hleg : legal = []
          · exact Or.inl hleg
          · exact Or.inr (hcond hleg)


/-- `s2` has the same length as `s` and every node keeps its structural
fields (statistics may differ). -/
def SameShape {Card : Type} (s s2 : List (InfoSet (Play Card))) : Prop :=
  s2.length = s.length ∧
  ∀ j n2, s2.get? j = some n2 → ∃ n, s.get? j = some n ∧
    n2.parent = n.parent ∧ n2.arriving_play = n.arriving_play ∧
    n2.children = n.children ∧ n2.play_to_children = n.play_to_children ∧
    n2.tried_plays = n.tried_plays

theorem structInv_sameShape {Card : Type}
    {s s2 : List (InfoSet (Play Card))}
    (hs : StructInv s) (h : SameShape s s2) : StructInv s2 := by
  obtain ⟨hlen, hb⟩ := h
  have hfwd : ∀ j n, s.get? j = some n → ∃ n2, s2.get? j = some n2 := by
    intro j n hn
    obtain ⟨hlt, -⟩ := List.get?_eq_some.mp hn
    have hlt2 : j < s2.length := by omega
    exact ⟨s2.get ⟨j, hlt2⟩, List.get?_eq_get hlt2⟩
  constructor
  · obtain ⟨r, hr⟩ := hs.root_some
    obtain ⟨r2, hr2⟩ := hfwd 0 r hr
    exact ⟨r2, hr2⟩
  · intro r2 hr2
    obtain ⟨r, hr, e₁, e₂, -, -, -⟩ := hb 0 r2 hr2
    obtain ⟨f₁, f₂⟩ := hs.root_none r hr
    exact ⟨e₁.trans f₁, e₂.trans f₂⟩
  · intro i n2 p hg hp
    obtain ⟨n, hn, e₁, -, -, -, -⟩ := hb i n2 hg
    exact hs.parent_lt i n p hn (e₁ ▸ hp)
  · intro i n2 hg hi
    obtain ⟨n, hn, e₁, e₂, -, -, -⟩ := hb i n2 hg
    obtain ⟨⟨p, hp⟩, ⟨play, hplay⟩⟩ := hs.nonroot_parent i n hn hi
    exact ⟨⟨p, e₁ ▸ hp⟩, ⟨play, e₂ ▸ hplay⟩⟩
  · intro i n2 hg
    obtain ⟨n, hn, -, -, -, e₄, e₅⟩ := hb i n2 hg
    rw [e₄, e₅]
    exact hs.p2c_tried i n hn
  · intro i n2 hg pr hpr
    obtain ⟨n, hn, -, -, -, e₄, -⟩ := hb i n2 hg
    have := hs.p2c_bounds i n hn pr (e₄ ▸ hpr)
    omega
  · intro i n2 hg
    obtain ⟨n, hn, -, -, e₃, -, -⟩ := hb i n2 hg
    rw [e₃]
    exact hs.children_nodup i n hn
  · intro i n2 hg j hj
    obtain ⟨n, hn, -, -, e₃, -, -⟩ := hb i n2 hg
    obtain ⟨m, hm, hmp⟩ := hs.children_parent i n hn j (e₃ ▸ hj)
    obtain ⟨m2, hm2⟩ := hfwd j m hm
    obtain ⟨mx, hmx, f₁, -, -, -, -⟩ := hb j m2 hm2
    have hmm : mx = m := Option.some.inj (hmx.symm.trans hm)
    subst hmm
    exact ⟨m2, hm2, f₁.trans hmp⟩
  · intro i n2 hg j m2 hm2 hmp
    obtain ⟨n, hn, -, -, e₃, -, -⟩ := hb i n2 hg
    obtain ⟨m, hm, f₁, -, -, -, -⟩ := hb j m2 hm2
    rw [e₃]
    exact hs.parent_children i n hn j m hm (f₁ ▸ hmp)

theorem backpropagate_none {Card : Type} (fuel : Nat)
    (s : List (InfoSet (Play Card))) (rewards : Fin 5 → Int) :
    backpropagate fuel s none rewards = Except.ok s := by
  cases fuel <;> rfl

/-- The full effect of one backpropagation pass started at node `i`: it
succeeds (fuel permitting), updates each node of the parent chain exactly
once — in particular the start node and the root — and, when the start is
not the root, exactly one node whose parent is the root; everything else is
untouched. -/
theorem backpropagate_spec {Card : Type} (rewards : Fin 5 → Int) :
    ∀ (i : Nat) (s : List (InfoSet (Play Card))),
      StructInv s → i < s.length →
      ∀ fuel, i < fuel →
      ∃ s2, backpropagate fuel s (some i) rewards = Except.ok s2 ∧
        s2.length = s.length ∧
        (∀ j n, s.get? j = some n →
          s2.get? j = some n ∨ s2.get? j = some (n.update rewards)) ∧
        (∀ j n, s.get? j = some n → i < j → s2.get? j = some n) ∧
        (∀ n, s.get? i = some n → s2.get? i = some (n.update rewards)) ∧
        (∀ r, s.get? 0 = some r → s2.get? 0 = some (r.update rewards)) ∧
        (i ≠ 0 →
          ∃ j₀ n₀, j₀ ≤ i ∧ s.get? j₀ = some n₀ ∧ n₀.parent = some 0 ∧
            s2.get? j₀ = some (n₀.update rewards) ∧
            (∀ j n, s.get? j = some n → n.parent = some 0 → j ≠ j₀ →
              s2.get? j = some n)) ∧
        (i = 0 → ∀ j n, s.get? j = some n → j ≠ 0 → s2.get? j = some n) := by
  intro i
  induction i using Nat.strong_induction_on with
  | _ i IH =>
    intro s hs hilen fuel hfuel
    obtain ⟨f, rfl⟩ : ∃ f, fuel = f + 1 := ⟨fuel - 1, by omega⟩
    obtain ⟨n, hn⟩ : ∃ n, s.get? i = some n :=
      ⟨s.get ⟨i, hilen⟩, List.get?_eq_get hilen⟩
    have hgn : getNode s i = Except.ok n := (getNode_ok _ _ _).mpr hn
    have hs1get_i : (setNode s i (n.update rewards)).get? i
        = some (n.update rewards) := by
      unfold setNode
      exact List.get?_set_eq_of_lt _ hilen
    have hs1get_ne : ∀ j, j ≠ i →
        (setNode s i (n.update rewards)).get? j = s.get? j := by
      intro j hj
      unfold setNode
      exact List.get?_set_ne _ _ (fun he => hj he.symm)
    have hs1len : (setNode s i (n.update rewards)).length = s.length := by
      unfold setNode
      simp
    have hs1shape : SameShape s (setNode s i (n.update rewards)) := by
      refine ⟨hs1len, fun j n2 hg2 => ?_⟩
      by_cases hj : j = i
      · subst hj
        rw [hs1get_i] at hg2
        have : n2 = n.update rewards := Option.some.inj hg2.symm
        subst this
        exact ⟨n, hn, rfl, rfl, rfl, rfl, rfl⟩
      · rw [hs1get_ne j hj] at hg2
        exact ⟨n2, hg2, rfl, rfl, rfl, rfl, rfl⟩
    have hs1inv : StructInv (setNode s i (n.update rewards)) :=
      structInv_sameShape hs hs1shape
    cases hp : n.parent with
    | none =>
        have hi0 : i = 0 := by
          by_contra hne
          obtain ⟨⟨p, hp2⟩, -⟩ := hs.nonroot_parent i n hn hne
          rw [hp] at hp2
          cases hp2
        subst hi0
        refine ⟨setNode s 0 (n.update rewards), ?_, hs1len, ?_, ?_, ?_, ?_,
          fun h0 => absurd rfl h0, fun _ => ?_⟩
        · have hr : backpropagate (f + 1) s (some 0) rewards
              = backpropagate f (setNode s 0 (n.update rewards)) n.parent
                  rewards := by
            simp only [backpropagate, hgn, Bind.bind, Except.bind]
          rw [hr, hp]
          exact backpropagate_none f _ rewards
        · intro j n2 hn2
          by_cases hj : j = 0
          · subst hj
            have hnn : n = n2 := (Option.some.inj (hn2.symm.trans hn)).symm
            subst hnn
            exact Or.inr hs1get_i
          · exact Or.inl ((hs1get_ne j hj).trans hn2)
        · intro j n2 hn2 hgt
          exact (hs1get_ne j (by omega)).trans hn2
        · intro n2 hn2
          have hnn : n = n2 := (Option.some.inj (hn2.symm.trans hn)).symm
          subst hnn
          exact hs1get_i
        · intro r hr
          have hnn : n = r := (Option.some.inj (hr.symm.trans hn)).symm
          subst hnn
          exact hs1get_i
        · intro j n2 hn2 hj
          exact (hs1get_ne j hj).trans hn2
    | some p =>
        have hi0 : i ≠ 0 := by
          intro h0
          subst h0
          have := (hs.root_none n hn).1
          rw [hp] at this
          cases this
        have hplt : p < i := hs.parent_lt i n p hn hp
        obtain ⟨s2, heq2, hlen2, hdich2, hgt2, hstart2, hroot2, hrc2,
          hzero2⟩ := IH p hplt (setNode s i (n.update rewards)) hs1inv
            (by omega) f (by omega)
        have hr : backpropagate (f + 1) s (some i) rewards
            = backpropagate f (setNode s i (n.update rewards)) n.parent
                rewards := by
          simp only [backpropagate, hgn, Bind.bind, Except.bind]
        refine ⟨s2, ?_, by omega, ?_, ?_, ?_, ?_, fun _ => ?_,
          fun h0 => absurd h0 hi0⟩
        · rw [hr, hp]
          exact heq2
        · intro j n2 hn2
          by_cases hj : j = i
          · subst hj
            have hnn : n = n2 := (Option.some.inj (hn2.symm.trans hn)).symm
            subst hnn
            exact Or.inr (hgt2 j (n.update rewards) hs1get_i hplt)
          · have hs1j : (setNode s i (n.update rewards)).get? j = some n2 :=
              (hs1get_ne j hj).trans hn2
            exact hdich2 j n2 hs1j
        · intro j n2 hn2 hgt
          have hs1j : (setNode s i (n.update rewards)).get? j = some n2 :=
            (hs1get_ne j (by omega)).trans hn2
          exact hgt2 j n2 hs1j (by omega)
        · intro n2 hn2
          have hnn : n = n2 := (Option.some.inj (hn2.symm.trans hn)).symm
          subst hnn
          exact hgt2 i (n.update rewards) hs1get_i hplt
        · intro r hr0
          have hs10 : (setNode s i (n.update rewards)).get? 0 = some r :=
            (hs1get_ne 0 (fun he => hi0 he.symm)).trans hr0
          exact hroot2 r hs10
        · by_cases hpz : p = 0
          · subst hpz
            refine ⟨i, n, le_refl i, hn, hp, ?_, ?_⟩
            · exact hgt2 i (n.update rewards) hs1get_i hplt
            · intro j n2 hn2 hpar hji
              have hj0 : j ≠ 0 := by
                intro h0
                subst h0
                have := (hs.root_none n2 hn2).1
                rw [hpar] at this
                cases this
              have hs1j : (setNode s i (n.update rewards)).get? j = some n2 :=
                (hs1get_ne j hji).trans hn2
              exact hzero2 rfl j n2 hs1j hj0
          · obtain ⟨j₀, n₀, hj₀le, hj₀get, hj₀par, hj₀upd, hothers⟩ :=
              hrc2 hpz
            have hj₀ne : j₀ ≠ i := by omega
            refine ⟨j₀, n₀, by omega, ?_, hj₀par, hj₀upd, ?_⟩
            · rw [← hs1get_ne j₀ hj₀ne]
              exact hj₀get
            · intro j n2 hn2 hpar hji
              by_cases hjid : j = i
              · subst hjid
                have hnn : n = n2 := (Option.some.inj (hn2.symm.trans hn)).symm
                subst hnn
                rw [hp] at hpar
                have : p = 0 := Option.some.inj hpar
                exact absurd this hpz
              · have hs1j : (setNode s i (n.update rewards)).get? j
                    = some n2 := (hs1get_ne j hjid).trans hn2
                exact hothers j n2 hs1j hpar hji



/-- Visit count of the root node. -/
def rootVisits {Card : Type} (s : List (InfoSet (Play Card))) : Nat :=
  match s.get? 0 with
  | some r => r.visits
  | none => 0

/-- Visit count of the node at slot `j` (0 for an absent slot). -/
def nodeVisits {Card : Type} (s : List (InfoSet (Play Card))) (j : Nat) :
    Nat :=
  match s.get? j with
  | some n => n.visits
  | none => 0

/-- The sum of the visit counts of the root children. -/
def childVisitSum {Card : Type} (s : List (InfoSet (Play Card))) : Nat :=
  match s.get? 0 with
  | some r => (r.children.map (nodeVisits s)).sum
  | none => 0

theorem simLoop_no_zdiv {σ Card : Type} (E : Engine σ Card)
    (choice : Nat → Nat) :
    ∀ (fuel : Nat) (st : σ) (k : Nat),
      simLoop E choice fuel st k ≠ Except.error PyErr.zeroDivision := by
  intro fuel
  induction fuel with
  | zero =>
    intro st k
    by_cases hc : E.next_calltype st = CallType.PLAY <;>
      simp [simLoop, hc]
  | succ fuel IH =>
    intro st k
    by_cases hc : E.next_calltype st = CallType.PLAY
    · simp only [simLoop, if_pos hc]
      cases hch : pyChoice (choice k) (E.get_legal_plays st) with
      | none => simp
      | some play => exact IH (E.play st play) (k + 1)
    · simp [simLoop, hc]

theorem pyChoice_of_ne_nil {α : Type} (k : Nat) (lst : List α)
    (h : lst ≠ []) : ∃ a, pyChoice k lst = some a := by
  unfold pyChoice
  have hpos : 0 < lst.length := List.length_pos.mpr h
  have hlt : k % lst.length < lst.length := Nat.mod_lt k hpos
  exact ⟨lst.get ⟨_, hlt⟩, List.get?_eq_get hlt⟩

theorem sum_map_bump_one {f g : Nat → Nat} :
    ∀ (l : List Nat), l.Nodup → ∀ j₀, j₀ ∈ l → g j₀ = f j₀ + 1 →
      (∀ j ∈ l, j ≠ j₀ → g j = f j) →
      (l.map g).sum = (l.map f).sum + 1 := by
  intro l
  induction l with
  | nil => intro _ j₀ hj₀; cases hj₀
  | cons a l IH =>
    intro hnd j₀ hj₀ hg hothers
    rcases List.mem_cons.mp hj₀ with ha | ha
    · have hga : g a = f a + 1 := by rw [← ha]; exact hg
      have hrest : ∀ j ∈ l, g j = f j := by
        intro j hj
        have hne : j ≠ j₀ := by
          intro he
          apply (List.nodup_cons.mp hnd).1
          rw [← ha, ← he]
          exact hj
        exact hothers j (List.mem_cons_of_mem _ hj) hne
      have hmap : l.map g = l.map f := List.map_congr_left hrest
      simp only [List.map_cons, List.sum_cons, hmap, hga]
      omega
    · have hane : a ≠ j₀ := by
        intro he
        exact (List.nodup_cons.mp hnd).1 (he ▸ ha)
      have hga : g a = f a := hothers a (List.mem_cons_self _ _) hane
      have := IH (List.nodup_cons.mp hnd).2 j₀ ha hg
        (fun j hj hne => hothers j (List.mem_cons_of_mem _ hj) hne)
      simp only [List.map_cons, List.sum_cons, hga, this]
      omega

theorem sameButAvails_nodeVisits {Card : Type}
    {s s2 : List (InfoSet (Play Card))} (h : SameButAvails s s2) :
    ∀ j, nodeVisits s2 j = nodeVisits s j := by
  intro j
  unfold nodeVisits
  cases hg : s.get? j with
  | some n =>
      obtain ⟨n2, hg2, -, -, -, -, -, -, e₇, -⟩ := h.2 j n hg
      rw [hg2]
      show n2.visits = n.visits
      exact e₇
  | none =>
      have hlen := h.1
      have : s2.get? j = none := by
        rw [List.get?_eq_none] at hg ⊢
        omega
      rw [this]

theorem sameButAvails_rootVisits {Card : Type}
    {s s2 : List (InfoSet (Play Card))} (h : SameButAvails s s2) :
    rootVisits s2 = rootVisits s := by
  unfold rootVisits
  cases hg : s.get? 0 with
  | some r =>
      obtain ⟨r2, hg2, -, -, -, -, -, -, e₇, -⟩ := h.2 0 r hg
      rw [hg2]
      show r2.visits = r.visits
      exact e₇
  | none =>
      have hlen := h.1
      have : s2.get? 0 = none := by
        rw [List.get?_eq_none] at hg ⊢
        omega
      rw [this]

theorem sameButAvails_childVisitSum {Card : Type}
    {s s2 : List (InfoSet (Play Card))} (h : SameButAvails s s2) :
    childVisitSum s2 = childVisitSum s := by
  unfold childVisitSum
  cases hg : s.get? 0 with
  | some r =>
      obtain ⟨r2, hg2, -, -, e₃, -, -, -, -, -⟩ := h.2 0 r hg
      rw [hg2]
      show (r2.children.map (nodeVisits s2)).sum
        = (r.children.map (nodeVisits s)).sum
      rw [e₃]
      congr 1
      exact List.map_congr_left fun j _ => sameButAvails_nodeVisits h j
  | none =>
      have hlen := h.1
      have : s2.get? 0 = none := by
        rw [List.get?_eq_none] at hg ⊢
        omega
      rw [this]



/-- The full effect of `add_child`: it appends a fresh node at the next id,
registers it at the parent, leaves every other slot untouched, preserves the
structural invariants, and does not move the visit metrics. -/
theorem add_child_analysis {Card : Type} [DecidableEq Card]
    (s : List (InfoSet (Play Card))) (nid : Nat) (play : Play Card)
    (node : InfoSet (Play Card)) (hn : s.get? nid = some node)
    (hs : StructInv s) :
    ∃ s2, add_child s nid play = Except.ok (s2, s.length) ∧
      s2.length = s.length + 1 ∧
      s2.get? nid = some { node with
        children := node.children ++ [s.length],
        play_to_children := node.play_to_children ++ [(play, s.length)],
        tried_plays := node.tried_plays ++ [play] } ∧
      s2.get? s.length = some (InfoSet.fresh (some nid) (some play)) ∧
      (∀ j, j ≠ nid → j ≠ s.length → s2.get? j = s.get? j) ∧
      StructInv s2 ∧
      rootVisits s2 = rootVisits s ∧
      childVisitSum s2 = childVisitSum s := by
  obtain ⟨hlt, -⟩ := List.get?_eq_some.mp hn
  have hgn : getNode s nid = Except.ok node := (getNode_ok _ _ _).mpr hn
  have hpos : 0 < s.length := by omega
  set node2 : InfoSet (Play Card) := { node with
    children := node.children ++ [s.length],
    play_to_children := node.play_to_children ++ [(play, s.length)],
    tried_plays := node.tried_plays ++ [play] } with hnode2
  set s2 : List (InfoSet (Play Card)) :=
    setNode s nid node2 ++ [InfoSet.fresh (some nid) (some play)] with hs2
  have hsetlen : (setNode s nid node2).length = s.length := by
    unfold setNode
    simp
  have hlen2 : s2.length = s.length + 1 := by
    rw [hs2]
    simp [hsetlen]
  have g1 : s2.get? nid = some node2 := by
    rw [hs2, List.get?_append (by omega)]
    unfold setNode
    exact List.get?_set_eq_of_lt _ hlt
  have g2 : s2.get? s.length = some (InfoSet.fresh (some nid) (some play)) := by
    rw [hs2]
    have := List.get?_concat_length (setNode s nid node2)
      (InfoSet.fresh (some nid) (some play))
    rw [hsetlen] at this
    exact this
  have g3 : ∀ j, j ≠ nid → j ≠ s.length → s2.get? j = s.get? j := by
    intro j hjn hjl
    by_cases hj : j < s.length
    · rw [hs2, List.get?_append (by omega)]
      unfold setNode
      exact List.get?_set_ne _ _ (fun he => hjn he.symm)
    · have h1 : s2.get? j = none := by
        rw [List.get?_eq_none, hlen2]
        omega
      have h2 : s.get? j = none := by
        rw [List.get?_eq_none]
        omega
      rw [h1, h2]
  have hback : ∀ j m2, s2.get? j = some m2 →
      (j = s.length ∧ m2 = InfoSet.fresh (some nid) (some play)) ∨
      (j = nid ∧ m2 = node2) ∨
      (j ≠ nid ∧ j ≠ s.length ∧ s.get? j = some m2) := by
    intro j m2 hm2
    by_cases hjl : j = s.length
    · subst hjl
      rw [g2] at hm2
      exact Or.inl ⟨rfl, (Option.some.inj hm2).symm⟩
    · by_cases hjn : j = nid
      · subst hjn
        rw [g1] at hm2
        exact Or.inr (Or.inl ⟨rfl, (Option.some.inj hm2).symm⟩)
      · exact Or.inr (Or.inr ⟨hjn, hjl, (g3 j hjn hjl).symm.trans hm2⟩)
  have hchild_lt : ∀ i n, s.get? i = some n → ∀ j ∈ n.children,
      0 < j ∧ j < s.length := by
    intro i n hni j hj
    obtain ⟨m, hm, hmp⟩ := hs.children_parent i n hni j hj
    obtain ⟨hjlt, -⟩ := List.get?_eq_some.mp hm
    have := hs.parent_lt j m i hm hmp
    omega
  have hinv2 : StructInv s2 := by
    constructor
    · by_cases h0 : nid = 0
      · exact ⟨node2, h0 ▸ g1⟩
      · obtain ⟨r, hr⟩ := hs.root_some
        exact ⟨r, (g3 0 (fun he => h0 he.symm) (by omega)).trans hr⟩
    · intro r2 hr2
      rcases hback 0 r2 hr2 with ⟨he, -⟩ | ⟨he, hm⟩ | ⟨-, -, hold⟩
      · omega
      · subst hm
        have h0 : s.get? 0 = some node := he ▸ hn
        obtain ⟨f₁, f₂⟩ := hs.root_none node h0
        exact ⟨f₁, f₂⟩
      · exact hs.root_none r2 hold
    · intro i m2 p hg2 hp
      rcases hback i m2 hg2 with ⟨he, hm⟩ | ⟨he, hm⟩ | ⟨-, -, hold⟩
      · subst hm
        have : p = nid := Option.some.inj hp.symm
        omega
      · subst hm
        subst he
        exact hs.parent_lt i node p hn hp
      · exact hs.parent_lt i m2 p hold hp
    · intro i m2 hg2 hi
      rcases hback i m2 hg2 with ⟨he, hm⟩ | ⟨he, hm⟩ | ⟨-, -, hold⟩
      · subst hm
        exact ⟨⟨nid, rfl⟩, ⟨play, rfl⟩⟩
      · subst hm
        subst he
        exact hs.nonroot_parent i node hn hi
      · exact hs.nonroot_parent i m2 hold hi
    · intro i m2 hg2
      rcases hback i m2 hg2 with ⟨he, hm⟩ | ⟨he, hm⟩ | ⟨-, -, hold⟩
      · subst hm
        rfl
      · subst hm
        show (node.play_to_children ++ [(play, s.length)]).map Prod.fst
          = node.tried_plays ++ [play]
        rw [List.map_append, hs.p2c_tried i node (he ▸ hn)]
        rfl
      · exact hs.p2c_tried i m2 hold
    · intro i m2 hg2 pr hpr
      rcases hback i m2 hg2 with ⟨he, hm⟩ | ⟨he, hm⟩ | ⟨-, -, hold⟩
      · subst hm
        cases hpr
      · subst hm
        rcases List.mem_append.mp hpr with hpr | hpr
        · have := hs.p2c_bounds i node (he ▸ hn) pr hpr
          omega
        · rcases List.mem_singleton.mp hpr with rfl
          constructor
          · show 0 < s.length
            omega
          · show s.length < s2.length
            omega
      · have := hs.p2c_bounds i m2 hold pr hpr
        omega
    · intro i m2 hg2
      rcases hback i m2 hg2 with ⟨he, hm⟩ | ⟨he, hm⟩ | ⟨-, -, hold⟩
      · subst hm
        exact List.nodup_nil
      · subst hm
        show (node.children ++ [s.length]).Nodup
        rw [List.nodup_append]
        refine ⟨hs.children_nodup i node (he ▸ hn), List.nodup_singleton _,
          fun x hx hx2 => ?_⟩
        have hxe : x = s.length := List.mem_singleton.mp hx2
        have := hchild_lt i node (he ▸ hn) x hx
        omega
      · exact hs.children_nodup i m2 hold
    · intro i m2 hg2 j hj
      rcases hback i m2 hg2 with ⟨he, hm⟩ | ⟨he, hm⟩ | ⟨hin, hil, hold⟩
      · subst hm
        cases hj
      · subst hm
        subst he
        rcases List.mem_append.mp hj with hj | hj
        · obtain ⟨m, hm, hmp⟩ := hs.children_parent i node hn j hj
          have hjb := hchild_lt i node hn j hj
          have hjne : j ≠ i := by
            have := hs.parent_lt j m i hm hmp
            omega
          refine ⟨m, ?_, hmp⟩
          rw [g3 j hjne (by omega)]
          exact hm
        · have hje : j = s.length := List.mem_singleton.mp hj
          refine ⟨InfoSet.fresh (some i) (some play), ?_, rfl⟩
          rw [hje]
          exact g2
      · obtain ⟨m, hm, hmp⟩ := hs.children_parent i m2 hold j hj
        have hjb := hchild_lt i m2 hold j hj
        by_cases hjn : j = nid
        · subst hjn
          have hmn : m = node := Option.some.inj (hm.symm.trans hn)
          subst hmn
          exact ⟨node2, g1, hmp⟩
        · refine ⟨m, ?_, hmp⟩
          rw [g3 j hjn (by omega)]
          exact hm
    · intro i n2 hg2 j m2 hm2 hmp
      rcases hback j m2 hm2 with ⟨hej, hmj⟩ | ⟨hej, hmj⟩ | ⟨hjn, hjl, hold⟩
      · have hin : i = nid := by
          rw [hmj] at hmp
          exact Option.some.inj hmp.symm
        have hn2 : n2 = node2 := by
          rw [hin] at hg2
          exact Option.some.inj (hg2.symm.trans g1)
        rw [hn2, hnode2, hej]
        show s.length ∈ node.children ++ [s.length]
        exact List.mem_append.mpr (Or.inr (List.mem_singleton.mpr rfl))
      · have hmp2 : node.parent = some i := by
          rw [hmj] at hmp
          exact hmp
        have hilt : i < nid := hs.parent_lt nid node i hn hmp2
        have hine : i ≠ nid := by omega
        have hill : i ≠ s.length := by omega
        have holdi : s.get? i = some n2 := (g3 i hine hill).symm.trans hg2
        have hmem := hs.parent_children i n2 holdi nid node hn hmp2
        rw [hej]
        exact hmem
      · have hjc := hs.parent_lt j m2 i hold hmp
        have hjlt : j < s.length := by
          obtain ⟨h1, -⟩ := List.get?_eq_some.mp hold
          omega
        rcases hback i n2 hg2 with ⟨he, hm⟩ | ⟨he, hm⟩ | ⟨hin, hil, holdi⟩
        · subst he
          omega
        · subst hm
          subst he
          have := hs.parent_children i node hn j m2 hold hmp
          show j ∈ node.children ++ [s.length]
          exact List.mem_append.mpr (Or.inl this)
        · exact hs.parent_children i n2 holdi j m2 hold hmp
  have hrv : rootVisits s2 = rootVisits s := by
    unfold rootVisits
    by_cases h0 : nid = 0
    · subst h0
      rw [g1, hn]
    · rw [g3 0 (fun he => h0 he.symm) (by omega)]
  have hcv : childVisitSum s2 = childVisitSum s := by
    unfold childVisitSum
    by_cases h0 : nid = 0
    · subst h0
      rw [g1, hn]
      show ((node.children ++ [s.length]).map (nodeVisits s2)).sum
        = (node.children.map (nodeVisits s)).sum
      rw [List.map_append, List.sum_append]
      have hmc : node.children.map (nodeVisits s2)
          = node.children.map (nodeVisits s) := by
        refine List.map_congr_left fun j hj => ?_
        have hb := hchild_lt 0 node hn j hj
        unfold nodeVisits
        rw [g3 j (by omega) (by omega)]
      rw [hmc]
      have hz : nodeVisits s2 s.length = 0 := by
        unfold nodeVisits
        rw [g2]
        rfl
      simp [hz]
    · rw [g3 0 (fun he => h0 he.symm) (by omega)]
      cases hr : s.get? 0 with
      | none => rfl
      | some r =>
          show (r.children.map (nodeVisits s2)).sum
            = (r.children.map (nodeVisits s)).sum
          congr 1
          refine List.map_congr_left fun j hj => ?_
          have hb := hchild_lt 0 r hr j hj
          unfold nodeVisits
          by_cases hjn : j = nid
          · subst hjn
            rw [g1, hn]
          · rw [g3 j hjn (by omega)]
  refine ⟨s2, ?_, hlen2, g1, g2, g3, hinv2, hrv, hcv⟩
  simp only [add_child, hgn, Bind.bind, Except.bind, hs2, hnode2]



theorem dichotomy_sameShape {Card : Type} (rewards : Fin 5 → Int)
    {s s2 : List (InfoSet (Play Card))}
    (hlen : s2.length = s.length)
    (hdich : ∀ j n, s.get? j = some n →
      s2.get? j = some n ∨ s2.get? j = some (n.update rewards)) :
    SameShape s s2 := by
  refine ⟨hlen, fun j n2 hg2 => ?_⟩
  have hlt : j < s.length := by
    obtain ⟨h1, -⟩ := List.get?_eq_some.mp hg2
    omega
  obtain ⟨n, hn⟩ : ∃ n, s.get? j = some n :=
    ⟨s.get ⟨j, hlt⟩, List.get?_eq_get hlt⟩
  rcases hdich j n hn with h | h
  · have he : n2 = n := Option.some.inj (hg2.symm.trans h)
    subst he
    exact ⟨n2, hn, rfl, rfl, rfl, rfl, rfl⟩
  · have he : n2 = n.update rewards := Option.some.inj (hg2.symm.trans h)
    subst he
    exact ⟨n, hn, rfl, rfl, rfl, rfl, rfl⟩

theorem dichotomy_availsPos {Card : Type} (rewards : Fin 5 → Int)
    {s s2 : List (InfoSet (Play Card))}
    (hlen : s2.length = s.length)
    (hdich : ∀ j n, s.get? j = some n →
      s2.get? j = some n ∨ s2.get? j = some (n.update rewards))
    (ha : AvailsPos s) : AvailsPos s2 := by
  intro j n2 hg2
  have hlt : j < s.length := by
    obtain ⟨h1, -⟩ := List.get?_eq_some.mp hg2
    omega
  obtain ⟨n, hn⟩ : ∃ n, s.get? j = some n :=
    ⟨s.get ⟨j, hlt⟩, List.get?_eq_get hlt⟩
  rcases hdich j n hn with h | h
  · have he : n2 = n := Option.some.inj (hg2.symm.trans h)
    subst he
    exact ha j n2 hn
  · have he : n2 = n.update rewards := Option.some.inj (hg2.symm.trans h)
    subst he
    exact ha j n hn

/-- After a backpropagation pass started below the root, the root gains
exactly one visit and the root children's total visit count gains exactly
one. -/
theorem backprop_metrics {Card : Type} (rewards : Fin 5 → Int)
    {s s2 : List (InfoSet (Play Card))} (hs : StructInv s)
    (hroot : ∀ r, s.get? 0 = some r → s2.get? 0 = some (r.update rewards))
    (hrc : ∃ j₀ n₀, s.get? j₀ = some n₀ ∧ n₀.parent = some 0 ∧
      s2.get? j₀ = some (n₀.update rewards) ∧
      (∀ j n, s.get? j = some n → n.parent = some 0 → j ≠ j₀ →
        s2.get? j = some n)) :
    rootVisits s2 = rootVisits s + 1 ∧
    childVisitSum s2 = childVisitSum s + 1 := by
  obtain ⟨r, hr⟩ := hs.root_some
  have hr2 := hroot r hr
  constructor
  · unfold rootVisits
    rw [hr, hr2]
    rfl
  · obtain ⟨j₀, n₀, hj₀get, hj₀par, hj₀upd, hothers⟩ := hrc
  
    have hj₀mem : j₀ ∈ r.children :=
      hs.parent_children 0 r hr j₀ n₀ hj₀get hj₀par
    unfold childVisitSum
    rw [hr, hr2]
    show (((r.update rewards).children).map (nodeVisits s2)).sum
      = (r.children.map (nodeVisits s)).sum + 1
    have hch : (r.update rewards).children = r.children := rfl
    rw [hch]
    refine sum_map_bump_one r.children (hs.children_nodup 0 r hr) j₀ hj₀mem
      ?_ ?_
    · unfold nodeVisits
      rw [hj₀get, hj₀upd]
      rfl
    · intro j hj hne
      obtain ⟨m, hm, hmp⟩ := hs.children_parent 0 r hr j hj
      unfold nodeVisits
      rw [hm, hothers j m hm hmp hne]



/-- One completed iteration of the search loop preserves the store
invariants, adds exactly one visit to the root, and — whenever the root
state has a legal play — exactly one visit to the root children's total;
it can never raise a zero-division error. -/
theorem oneIteration_analysis {σ Card β : Type} [DecidableEq Card]
    [LinearOrder β] (E : Engine σ Card) (score : InfoSet (Play Card) → β)
    (choice : Nat → Nat) (fuel : Nat) (s : List (InfoSet (Play Card)))
    (st0 : σ) (k : Nat)
    (hs : StructInv s) (hv : VisitsPos s) (ha : AvailsPos s) :
    (oneIteration E score choice fuel s st0 k
      ≠ Except.error PyErr.zeroDivision) ∧
    (∀ s3 k3, oneIteration E score choice fuel s st0 k
        = Except.ok (Sum.inl (s3, k3)) →
      StructInv s3 ∧ VisitsPos s3 ∧ AvailsPos s3 ∧
      rootVisits s3 = rootVisits s + 1 ∧
      (E.get_legal_plays st0 ≠ [] →
        childVisitSum s3 = childVisitSum s + 1)) := by
  by_cases hlen1 : (E.get_legal_plays st0).length = 1
  · cases hleg : E.get_legal_plays st0 with
    | nil => rw [hleg] at hlen1; simp at hlen1
    | cons a t =>
        have hlen1x : (a :: t).length = 1 := hleg ▸ hlen1
        have hr : oneIteration E score choice fuel s st0 k
            = Except.ok (Sum.inr a) := by
          simp only [oneIteration, hleg, if_pos hlen1x, List.head?_cons]
        rw [hr]
        exact ⟨fun hc => Except.noConfusion hc,
          fun s3 k3 h => Sum.noConfusion (Except.ok.inj h)⟩
  · cases hsel : selectLoop E score fuel s 0 st0 (E.get_legal_plays st0) with
    | error e =>
        have hr : oneIteration E score choice fuel s st0 k
            = Except.error e := by
          simp only [oneIteration, if_neg hlen1, hsel, Bind.bind, Except.bind]
        rw [hr]
        have hzd := (selectLoop_analysis E score fuel s 0 st0
          (E.get_legal_plays st0) hs hv).1
        rw [hsel] at hzd
        refine ⟨fun hc => ?_, fun s3 k3 h => Except.noConfusion h⟩
        have he := Except.error.inj hc
        exact hzd (by rw [he])
    | ok quad =>
        obtain ⟨s1, nid1, st1, legal1⟩ := quad
        obtain ⟨hsame1, hnid1, node1, hnode1, hexit⟩ :=
          (selectLoop_analysis E score fuel s 0 st0
            (E.get_legal_plays st0) hs hv).2 s1 nid1 st1 legal1 hsel
        have hs1 : StructInv s1 := structInv_sameButAvails hs hsame1
        have hv1 : VisitsPos s1 := visitsPos_sameButAvails hv hsame1
        have ha1 : AvailsPos s1 := availsPos_sameButAvails ha hsame1
        have hg1 : s1.get? nid1 = some node1 := (getNode_ok _ _ _).mp hnode1
        have hpos1 : 0 < s1.length := by
          obtain ⟨r, hr⟩ := hs1.root_some
          obtain ⟨hlt, -⟩ := List.get?_eq_some.mp hr
          omega
        have hnid1lt : nid1 < s1.length := by
          obtain ⟨hlt, -⟩ := List.get?_eq_some.mp hg1
          omega
        by_cases hunt : node1.untried_plays legal1 = []
        · cases hsim : simLoop E choice fuel st1 k with
          | error e =>
              have hr : oneIteration E score choice fuel s st0 k
                  = Except.error e := by
                simp only [oneIteration, if_neg hlen1, hsel, hnode1,
                  if_pos hunt, hsim, Bind.bind, Except.bind]
              rw [hr]
              refine ⟨fun hc => ?_, fun s3 k3 h => Except.noConfusion h⟩
              have he := Except.error.inj hc
              have := simLoop_no_zdiv E choice fuel st1 k
              rw [hsim, he] at this
              exact this rfl
          | ok pr2 =>
              obtain ⟨st3, k3x⟩ := pr2
              obtain ⟨s3, heq3, hlen3, hdich3, hgt3, hstart3, hroot3, hrc3,
                hzero3⟩ := backpropagate_spec (E.gamepoints_rewarded st3)
                  nid1 s1 hs1 hnid1lt s1.length (by omega)
              have hr : oneIteration E score choice fuel s st0 k
                  = Except.ok (Sum.inl (s3, k3x)) := by
                simp only [oneIteration, if_neg hlen1, hsel, hnode1,
                  if_pos hunt, hsim, heq3, Bind.bind, Except.bind]
              rw [hr]
              refine ⟨fun hc => Except.noConfusion hc, fun s3x k3y h => ?_⟩
              have hp := Sum.inl.inj (Except.ok.inj h)
              have hps : s3 = s3x := congrArg Prod.fst hp
              have hpk : k3x = k3y := congrArg Prod.snd hp
              subst hps
              subst hpk
              have hshape3 : SameShape s1 s3 :=
                dichotomy_sameShape _ hlen3 hdich3
              refine ⟨structInv_sameShape hs1 hshape3, ?_, ?_, ?_, ?_⟩
              · intro j n3 hg3 hj0
                have hlt : j < s1.length := by
                  obtain ⟨h1, -⟩ := List.get?_eq_some.mp hg3
                  omega
                obtain ⟨n, hn⟩ : ∃ n, s1.get? j = some n :=
                  ⟨s1.get ⟨j, hlt⟩, List.get?_eq_get hlt⟩
                rcases hdich3 j n hn with hcase | hcase
                · have he : n3 = n := Option.some.inj (hg3.symm.trans hcase)
                  subst he
                  exact hv1 j n3 hn hj0
                · have he : n3 = n.update (E.gamepoints_rewarded st3) :=
                    Option.some.inj (hg3.symm.trans hcase)
                  subst he
                  have := hv1 j n hn hj0
                  show 1 ≤ n.visits + 1
                  omega
              · exact dichotomy_availsPos _ hlen3 hdich3 ha1
              · obtain ⟨r, hr1⟩ := hs1.root_some
                have hr3 := hroot3 r hr1
                have hrva : rootVisits s3 = rootVisits s1 + 1 := by
                  unfold rootVisits
                  rw [hr1, hr3]
                  rfl
                rw [hrva, sameButAvails_rootVisits hsame1]
              · intro hne0
                have hnid1ne : nid1 ≠ 0 := by
                  rcases hnid1 with ⟨hseq, hneq, hsteq, hleq⟩ | ⟨hb1, -⟩
                  · exfalso
                    rcases hexit with hl | hu
                    · rw [hleq] at hl
                      exact hne0 hl
                    · exact hu hunt
                  · omega
                obtain ⟨hrva, hcva⟩ := backprop_metrics
                  (E.gamepoints_rewarded st3) hs1 hroot3
                  (by
                    obtain ⟨j₀, n₀, -, h1, h2, h3, h4⟩ := hrc3 hnid1ne
                    exact ⟨j₀, n₀, h1, h2, h3, h4⟩)
                rw [hcva, sameButAvails_childVisitSum hsame1]
        · obtain ⟨play, hplay⟩ := pyChoice_of_ne_nil (choice k) _ hunt
          obtain ⟨s2, hadd, hlen2, hgnid, hgcid, hg3x, hs2, hrv2, hcv2⟩ :=
            add_child_analysis s1 nid1 play node1 hg1 hs1
          cases hsim : simLoop E choice fuel (E.play st1 play) (k + 1) with
          | error e =>
              have hr : oneIteration E score choice fuel s st0 k
                  = Except.error e := by
                simp only [oneIteration, if_neg hlen1, hsel, hnode1,
                  if_neg hunt, hplay, hadd, hsim, Bind.bind, Except.bind]
              rw [hr]
              refine ⟨fun hc => ?_, fun s3 k3 h => Except.noConfusion h⟩
              have he := Except.error.inj hc
              have := simLoop_no_zdiv E choice fuel (E.play st1 play) (k + 1)
              rw [hsim, he] at this
              exact this rfl
          | ok pr2 =>
              obtain ⟨st3, k3x⟩ := pr2
              have hcidlt : s1.length < s2.length := by omega
              obtain ⟨s3, heq3, hlen3, hdich3, hgt3, hstart3, hroot3, hrc3,
                hzero3⟩ := backpropagate_spec (E.gamepoints_rewarded st3)
                  s1.length s2 hs2 hcidlt s2.length (by omega)
              have hr : oneIteration E score choice fuel s st0 k
                  = Except.ok (Sum.inl (s3, k3x)) := by
                simp only [oneIteration, if_neg hlen1, hsel, hnode1,
                  if_neg hunt, hplay, hadd, hsim, heq3, Bind.bind,
                  Except.bind]
              rw [hr]
              refine ⟨fun hc => Except.noConfusion hc, fun s3x k3y h => ?_⟩
              have hp := Sum.inl.inj (Except.ok.inj h)
              have hps : s3 = s3x := congrArg Prod.fst hp
              have hpk : k3x = k3y := congrArg Prod.snd hp
              subst hps
              subst hpk
              have hshape3 : SameShape s2 s3 :=
                dichotomy_sameShape _ hlen3 hdich3
              have hv2 : ∀ j n, s2.get? j = some n → j ≠ 0 →
                  j ≠ s1.length → 1 ≤ n.visits := by
                intro j n hgj hj0 hjc
                by_cases hjn : j = nid1
                · subst hjn
                  have hne : n = { node1 with
                      children := node1.children ++ [s1.length],
                      play_to_children :=
                        node1.play_to_children ++ [(play, s1.length)],
                      tried_plays := node1.tried_plays ++ [play] } :=
                    Option.some.inj (hgj.symm.trans hgnid)
                  subst hne
                  show 1 ≤ node1.visits
                  exact hv1 j node1 hg1 hj0
                · have := (hg3x j hjn hjc).symm.trans hgj
                  exact hv1 j n this hj0
              have ha2 : AvailsPos s2 := by
                intro j n hgj
                by_cases hjc : j = s1.length
                · subst hjc
                  have hne : n = InfoSet.fresh (some nid1) (some play) :=
                    Option.some.inj (hgj.symm.trans hgcid)
                  subst hne
                  exact le_refl 1
                · by_cases hjn : j = nid1
                  · subst hjn
                    have hne : n = { node1 with
                        children := node1.children ++ [s1.length],
                        play_to_children :=
                          node1.play_to_children ++ [(play, s1.length)],
                        tried_plays := node1.tried_plays ++ [play] } :=
                      Option.some.inj (hgj.symm.trans hgnid)
                    subst hne
                    show 1 ≤ node1.avails
                    exact ha1 j node1 hg1
                  · have := (hg3x j hjn hjc).symm.trans hgj
                    exact ha1 j n this
              refine ⟨structInv_sameShape hs2 hshape3, ?_, ?_, ?_, ?_⟩
              · intro j n3 hgj hj0
                by_cases hjc : j = s1.length
                · subst hjc
                  have h3 := hstart3 (InfoSet.fresh (some nid1) (some play))
                    hgcid
                  have hne : n3 = (InfoSet.fresh (some nid1)
                      (some play)).update (E.gamepoints_rewarded st3) :=
                    Option.some.inj (hgj.symm.trans h3)
                  subst hne
                  exact le_refl 1
                · have hlt : j < s2.length := by
                    obtain ⟨h1, -⟩ := List.get?_eq_some.mp hgj
                    omega
                  obtain ⟨n, hn⟩ : ∃ n, s2.get? j = some n :=
                    ⟨s2.get ⟨j, hlt⟩, List.get?_eq_get hlt⟩
                  rcases hdich3 j n hn with hcase | hcase
                  · have he : n3 = n := Option.some.inj (hgj.symm.trans hcase)
                    subst he
                    exact hv2 j n3 hn hj0 hjc
                  · have he : n3 = n.update (E.gamepoints_rewarded st3) :=
                      Option.some.inj (hgj.symm.trans hcase)
                    subst he
                    have := hv2 j n hn hj0 hjc
                    show 1 ≤ n.visits + 1
                    omega
              · exact dichotomy_availsPos _ hlen3 hdich3 ha2
              · obtain ⟨r, hr2⟩ := hs2.root_some
                have hr3 := hroot3 r hr2
                have hrva : rootVisits s3 = rootVisits s2 + 1 := by
                  unfold rootVisits
                  rw [hr2, hr3]
                  rfl
                rw [hrva, hrv2, sameButAvails_rootVisits hsame1]
              · intro hne0
                have hcne : s1.length ≠ 0 := by omega
                obtain ⟨hrva, hcva⟩ := backprop_metrics
                  (E.gamepoints_rewarded st3) hs2 hroot3
                  (by
                    obtain ⟨j₀, n₀, -, h1, h2, h3, h4⟩ := hrc3 hcne
                    exact ⟨j₀, n₀, h1, h2, h3, h4⟩)
                rw [hcva, hcv2, sameButAvails_childVisitSum hsame1]



theorem structInv_init {Card : Type} :
    StructInv ([InfoSet.fresh none none] : List (InfoSet (Play Card))) := by
  constructor
  · exact ⟨InfoSet.fresh none none, rfl⟩
  · intro r hr
    have : InfoSet.fresh none none = r := Option.some.inj hr
    subst this
    exact ⟨rfl, rfl⟩
  · intro i n p hn hp
    cases i with
    | zero =>
        have : InfoSet.fresh (none : Option Nat)
            (none : Option (Play Card)) = n := Option.some.inj hn
        subst this
        cases hp
    | succ i => simp at hn
  · intro i n hn hi
    cases i with
    | zero => exact absurd rfl hi
    | succ i => simp at hn
  · intro i n hn
    cases i with
    | zero =>
        have : InfoSet.fresh (none : Option Nat)
            (none : Option (Play Card)) = n := Option.some.inj hn
        subst this
        rfl
    | succ i => simp at hn
  · intro i n hn pr hpr
    cases i with
    | zero =>
        have : InfoSet.fresh (none : Option Nat)
            (none : Option (Play Card)) = n := Option.some.inj hn
        subst this
        cases hpr
    | succ i => simp at hn
  · intro i n hn
    cases i with
    | zero =>
        have : InfoSet.fresh (none : Option Nat)
            (none : Option (Play Card)) = n := Option.some.inj hn
        subst this
        exact List.nodup_nil
    | succ i => simp at hn
  · intro i n hn j hj
    cases i with
    | zero =>
        have : InfoSet.fresh (none : Option Nat)
            (none : Option (Play Card)) = n := Option.some.inj hn
        subst this
        cases hj
    | succ i => simp at hn
  · intro i n hn j m hm hmp
    cases j with
    | zero =>
        have : InfoSet.fresh (none : Option Nat)
            (none : Option (Play Card)) = m := Option.some.inj hm
        subst this
        cases hmp
    | succ j => simp at hm

theorem visitsPos_init {Card : Type} :
    VisitsPos ([InfoSet.fresh none none] : List (InfoSet (Play Card))) := by
  intro j n hn hj
  cases j with
  | zero => exact absurd rfl hj
  | succ j => simp at hn

theorem availsPos_init {Card : Type} :
    AvailsPos ([InfoSet.fresh none none] : List (InfoSet (Play Card))) := by
  intro j n hn
  cases j with
  | zero =>
      have : InfoSet.fresh (none : Option Nat)
          (none : Option (Play Card)) = n := Option.some.inj hn
      subst this
      exact le_refl 1
  | succ j => simp at hn

/-- The whole iteration loop: invariants hold at every exit, the root's
visit count grows by exactly one per completed iteration, and — as long as
the determinized root states keep a legal play — so does the root
children's total; no zero-division error can ever surface. -/
theorem ismctsRun_analysis {σ Card β : Type} [DecidableEq Card]
    [LinearOrder β] (E : Engine σ Card) (score : InfoSet (Play Card) → β)
    (choice : Nat → Nat) (det : Nat → σ) (fuel : Nat) :
    ∀ (rem i : Nat) (s : List (InfoSet (Play Card))) (k : Nat),
      StructInv s → VisitsPos s → AvailsPos s →
      (ismctsRun E score choice det fuel rem i s k
        ≠ Except.error PyErr.zeroDivision) ∧
      (∀ s2, ismctsRun E score choice det fuel rem i s k
          = Except.ok (RunExit.completed s2) →
        StructInv s2 ∧ VisitsPos s2 ∧ AvailsPos s2 ∧
        rootVisits s2 = rootVisits s + rem ∧
        ((∀ m, i ≤ m → m < i + rem → E.get_legal_plays (det m) ≠ []) →
          childVisitSum s2 = childVisitSum s + rem)) ∧
      (∀ play j s2, ismctsRun E score choice det fuel rem i s k
          = Except.ok (RunExit.shortCircuit play j s2) →
        i ≤ j ∧ j < i + rem ∧
        StructInv s2 ∧ VisitsPos s2 ∧ AvailsPos s2 ∧
        rootVisits s2 = rootVisits s + (j - i) ∧
        ((∀ m, i ≤ m → m < i + rem → E.get_legal_plays (det m) ≠ []) →
          childVisitSum s2 = childVisitSum s + (j - i))) := by
  intro rem
  induction rem with
  | zero =>
    intro i s k hs hv ha
    refine ⟨fun hc => Except.noConfusion hc, fun s2 h => ?_, fun play j s2 h => ?_⟩
    · have he := Except.ok.inj h
      have : s = s2 := by
        cases he
        rfl
      subst this
      exact ⟨hs, hv, ha, by omega, fun _ => by omega⟩
    · exact absurd (Except.ok.inj h) (fun hx => RunExit.noConfusion hx)
  | succ rem IH =>
    intro i s k hs hv ha
    obtain ⟨hzd1, hok1⟩ := oneIteration_analysis E score choice fuel s
      (det i) k hs hv ha
    cases hone : oneIteration E score choice fuel s (det i) k with
    | error e =>
        have hr : ismctsRun E score choice det fuel (rem + 1) i s k
            = Except.error e := by
          simp only [ismctsRun, hone]
        rw [hr]
        refine ⟨fun hc => ?_, fun s2 h => Except.noConfusion h,
          fun play j s2 h => Except.noConfusion h⟩
        have he := Except.error.inj hc
        rw [hone, he] at hzd1
        exact hzd1 rfl
    | ok res =>
        cases res with
        | inr play =>
            have hr : ismctsRun E score choice det fuel (rem + 1) i s k
                = Except.ok (RunExit.shortCircuit play i s) := by
              simp only [ismctsRun, hone]
            rw [hr]
            refine ⟨fun hc => Except.noConfusion hc,
              fun s2 h => ?_, fun play2 j s2 h => ?_⟩
            · exact absurd (Except.ok.inj h)
                (fun hx => RunExit.noConfusion hx)
            · have he := Except.ok.inj h
              have h1 : play = play2 ∧ i = j ∧ s = s2 := by
                cases he
                exact ⟨rfl, rfl, rfl⟩
              obtain ⟨-, hij, hss⟩ := h1
              subst hij
              subst hss
              exact ⟨le_refl i, by omega, hs, hv, ha, by omega,
                fun _ => by omega⟩
        | inl pr =>
            obtain ⟨s1, k1⟩ := pr
            obtain ⟨hs1, hv1, ha1, hrv1, hcv1⟩ := hok1 s1 k1 hone
            have hr : ismctsRun E score choice det fuel (rem + 1) i s k
                = ismctsRun E score choice det fuel rem (i + 1) s1 k1 := by
              simp only [ismctsRun, hone]
            rw [hr]
            obtain ⟨hzd2, hok2, hsc2⟩ := IH (i + 1) s1 k1 hs1 hv1 ha1
            refine ⟨hzd2, fun s2 h => ?_, fun play j s2 h => ?_⟩
            · obtain ⟨i1, i2, i3, i4, i5⟩ := hok2 s2 h
              refine ⟨i1, i2, i3, by omega, fun hleg => ?_⟩
              have hcv := hcv1 (hleg i (le_refl i) (by omega))
              have := i5 fun m hm1 hm2 => hleg m (by omega) (by omega)
              omega
            · obtain ⟨i1, i2, i3, i4, i5, i6, i7⟩ := hsc2 play j s2 h
              refine ⟨by omega, by omega, i3, i4, i5, by omega,
                fun hleg => ?_⟩
              have hcv := hcv1 (hleg i (le_refl i) (by omega))
              have := i7 fun m hm1 hm2 => hleg m (by omega) (by omega)
              omega



/-- C5: with iteration budget `N` (and the determinized root states all
offering a legal play, as in any live game), the sum of the root children's
visit counts equals the root's own visit count, which counts exactly the
iterations that passed through the root: `N` when the run completes, and
the index `i < N` of the firing iteration when the single-move
short-circuit exits early — so the children's total is always at most
`N`, with equality when no short-circuit triggers. -/
theorem ismcts_visit_counts {σ Card β : Type} [DecidableEq Card]
    [LinearOrder β] (E : Engine σ Card) (score : InfoSet (Play Card) → β)
    (choice : Nat → Nat) (det : Nat → σ) (fuel : Nat) (itermax : Int)
    (hlegal : ∀ i, E.get_legal_plays (det i) ≠ []) :
    (∀ s, ismctsRun E score choice det fuel itermax.toNat 0
        [InfoSet.fresh none none] 0 = Except.ok (RunExit.completed s) →
      childVisitSum s = itermax.toNat ∧ rootVisits s = itermax.toNat) ∧
    (∀ play i s, ismctsRun E score choice det fuel itermax.toNat 0
        [InfoSet.fresh none none] 0
        = Except.ok (RunExit.shortCircuit play i s) →
      i < itermax.toNat ∧ childVisitSum s = i ∧ rootVisits s = i) := by
  obtain ⟨-, hok, hsc⟩ := ismctsRun_analysis E score choice det fuel
    itermax.toNat 0 [InfoSet.fresh none none] 0 structInv_init
    visitsPos_init availsPos_init
  have hr0 : rootVisits
      ([InfoSet.fresh none none] : List (InfoSet (Play Card))) = 0 := rfl
  have hc0 : childVisitSum
      ([InfoSet.fresh none none] : List (InfoSet (Play Card))) = 0 := rfl
  refine ⟨fun s h => ?_, fun play i s h => ?_⟩
  · obtain ⟨-, -, -, hrv, hcv⟩ := hok s h
    have hcv2 := hcv fun m _ _ => hlegal m
    exact ⟨by omega, by omega⟩
  · obtain ⟨hi0, hilt, -, -, -, hrv, hcv⟩ := hsc play i s h
    have hcv2 := hcv fun m _ _ => hlegal m
    exact ⟨by omega, by omega, by omega⟩

theorem ismcts_visit_counts_witness :
    childVisitSum [rootWitFinal, childWitFinal] = (1 : Int).toNat ∧
    rootVisits [rootWitFinal, childWitFinal] = (1 : Int).toNat :=
  (ismcts_visit_counts engineWit
      (fun nd : InfoSet (Play Nat) => nd.visits) (fun _ => 0) (fun _ => 0)
      4 1 (fun _ => (by decide : engineWit.get_legal_plays 0 ≠ []))).1
    [rootWitFinal, childWitFinal] rfl

/-- C7: division by a zero visit count never occurs in selection — the
search never surfaces a `ZeroDivisionError`, because at every store the run
can reach, each node besides the root has `visits ≥ 1` (it was created by
expansion and immediately visited by that iteration's backpropagation) and
`avails ≥ 1`, so every legal child `ucb_child_select` evaluates has
positive divisors. -/
theorem ucb_no_zero_division {σ Card β : Type} [DecidableEq Card]
    [LinearOrder β] (E : Engine σ Card) (score : InfoSet (Play Card) → β)
    (choice : Nat → Nat) (det : Nat → σ) (fuel : Nat) (itermax : Int) :
    ismcts E score choice det fuel itermax
      ≠ Except.error PyErr.zeroDivision ∧
    (∀ play i s, ismctsRun E score choice det fuel itermax.toNat 0
        [InfoSet.fresh none none] 0
        = Except.ok (RunExit.shortCircuit play i s) →
      VisitsPos s ∧ AvailsPos s) ∧
    (∀ s, ismctsRun E score choice det fuel itermax.toNat 0
        [InfoSet.fresh none none] 0 = Except.ok (RunExit.completed s) →
      VisitsPos s ∧ AvailsPos s) := by
  obtain ⟨hzd, hok, hsc⟩ := ismctsRun_analysis E score choice det fuel
    itermax.toNat 0 [InfoSet.fresh none none] 0 structInv_init
    visitsPos_init availsPos_init
  refine ⟨?_, fun play i s h => ?_, fun s h => ?_⟩
  · intro hc
    cases hrun : ismctsRun E score choice det fuel itermax.toNat 0
        [InfoSet.fresh none none] 0 with
    | error e =>
        have hi : ismcts E score choice det fuel itermax
            = Except.error e := by
          simp only [ismcts, hrun, Bind.bind, Except.bind]
        rw [hi] at hc
        have he := Except.error.inj hc
        rw [he] at hrun
        exact hzd hrun
    | ok ex =>
        cases ex with
        | shortCircuit play i s =>
            have hi : ismcts E score choice det fuel itermax
                = Except.ok play := by
              simp only [ismcts, hrun, Bind.bind, Except.bind]
            rw [hi] at hc
            exact Except.noConfusion hc
        | completed s =>
            cases hg : s.get? 0 with
            | none =>
                have hgn : getNode s 0 = Except.error PyErr.indexError := by
                  simp only [getNode, hg]
                have hi : ismcts E score choice det fuel itermax
                    = Except.error PyErr.indexError := by
                  simp only [ismcts, hrun, hgn, Bind.bind, Except.bind]
                rw [hi] at hc
                exact PyErr.noConfusion (Except.error.inj hc)
            | some root =>
                have hgo : getNode s 0 = Except.ok root := by
                  simp only [getNode, hg]
                cases hm : mapExcept (getNode s) root.children with
                | error e =>
                    obtain ⟨a, ha, hfa⟩ :=
                      mapExcept_error (getNode s) root.children e hm
                    have he : e = PyErr.indexError := by
                      cases hsa : s.get? a with
                      | none =>
                          simp only [getNode, hsa] at hfa
                          exact (Except.error.inj hfa).symm
                      | some n =>
                          simp only [getNode, hsa] at hfa
                          exact Except.noConfusion hfa
                    have hi : ismcts E score choice det fuel itermax
                        = Except.error e := by
                      simp only [ismcts, hrun, hgo, hm, Bind.bind,
                        Except.bind]
                    rw [hi] at hc
                    have h2 := Except.error.inj hc
                    rw [he] at h2
                    exact PyErr.noConfusion h2
                | ok cnodes =>
                    cases hmax : pyMax
                        (fun c : InfoSet (Play Card) => c.visits) cnodes with
                    | none =>
                        have hi : ismcts E score choice det fuel itermax
                            = Except.error PyErr.valueError := by
                          simp only [ismcts, hrun, hgo, hm, hmax,
                            Bind.bind, Except.bind]
                        rw [hi] at hc
                        exact PyErr.noConfusion (Except.error.inj hc)
                    | some best =>
                        cases hbp : best.arriving_play with
                        | none =>
                            have hi : ismcts E score choice det fuel itermax
                                = Except.error PyErr.keyError := by
                              simp only [ismcts, hrun, hgo, hm, hmax, hbp,
                                Bind.bind, Except.bind]
                            rw [hi] at hc
                            exact PyErr.noConfusion (Except.error.inj hc)
                        | some play =>
                            have hi : ismcts E score choice det fuel itermax
                                = Except.ok play := by
                              simp only [ismcts, hrun, hgo, hm, hmax, hbp,
                                Bind.bind, Except.bind]
                            rw [hi] at hc
                            exact Except.noConfusion hc
  · obtain ⟨-, -, -, hv, ha, -, -⟩ := hsc play i s h
    exact ⟨hv, ha⟩
  · obtain ⟨-, hv, ha, -, -⟩ := hok s h
    exact ⟨hv, ha⟩

theorem ucb_no_zero_division_witness :
    ismcts engineWit (fun nd : InfoSet (Play Nat) => nd.visits)
        (fun _ => 0) (fun _ => 0) 4 1
      ≠ Except.error PyErr.zeroDivision ∧
    (VisitsPos [rootWitFinal, childWitFinal] ∧
      AvailsPos [rootWitFinal, childWitFinal]) :=
  ⟨(ucb_no_zero_division engineWit
      (fun nd : InfoSet (Play Nat) => nd.visits) (fun _ => 0) (fun _ => 0)
      4 1).1,
    (ucb_no_zero_division engineWit
      (fun nd : InfoSet (Play Nat) => nd.visits) (fun _ => 0) (fun _ => 0)
      4 1).2.2 [rootWitFinal, childWitFinal] rfl⟩


end Tempest
